import Mathlib

/-!
Shallow embedding of the text-search core of `src/FolderSearchV6Zip.py`
(the richest variant of the repository's folder-search application) and
proofs about its match-policy engine, result emission, preview capping,
ordering and cancellation behaviour.

Modelling conventions:
* a source's byte stream is modelled after decoding as the list of text
  lines it yields, plus an optional read/decode exception that fires when
  the consumer asks for one more line (`LineSrc`);
* the cooperative stop flag is modelled by a global counter of
  `stop_flag.is_set()` checks: with `cancelAt = some c` every check from
  the `c`-th one on observes the flag set, `none` is an uncancelled run;
* Python `str.lower` is modelled by ASCII lowering (`lowerStr`),
  `os.path.relpath` by the identity on the stored path, and
  `os.path.basename` with the POSIX separator; string helpers are
  written over character lists so that every definition evaluates by
  kernel reduction;
* the CSV writer is modelled by the list of rows written, in order.
-/

set_option maxHeartbeats 1000000

namespace FS

/-- Line-number column of a result row, the tagged union behind the
`int | "-" | "ERROR"` values that `_process_files` / `_process_archive`
put into the third tuple slot. -/
inductive LineNum where
  | num : Nat → LineNum
  | sentinel : LineNum
  | error : LineNum
deriving DecidableEq, Repr

/-- Real-match test on the line-number column: Python's
`isinstance(r[2], int) or (isinstance(r[2], str) and r[2].isdigit())`
(the strings `"-"` and `"ERROR"` are not digit strings). -/
def LineNum.isNum : LineNum → Bool
  | .num _ => true
  | _ => false

/-- One result row `(Path, Filename, Line Number, Line Content)`. -/
structure Row where
  path : String
  fname : String
  lineNum : LineNum
  text : String
deriving DecidableEq, Repr

/-- The policy flags collected into `params` by `search_files`. -/
structure Params where
  matchOnce : Bool
  useLast : Bool
  caseSens : Bool
  showAll : Bool
  incNomatch : Bool
deriving DecidableEq, Repr

/-- Python's substring test `needle in hay` on character lists. -/
def subList (needle : List Char) : List Char → Bool
  | [] => needle.isEmpty
  | c :: rest => needle.isPrefixOf (c :: rest) || subList needle rest

/-- Python's substring test `needle in hay` on strings. -/
def strIn (needle hay : String) : Bool := subList needle.toList hay.toList

/-- Python `line.rstrip('\n')`. -/
def rstripNl (s : String) : String :=
  String.mk ((s.toList.reverse.dropWhile (fun c => c == '\n')).reverse)

/-- Python `str.lower` (ASCII model of it). -/
def lowerStr (s : String) : String := String.mk (s.toList.map Char.toLower)

/-- The per-line hit test of the three copies of the match loop:
`line_to_check = line if case_sens else line.lower()` followed by
`keyword in line_to_check`.  The keyword passed in is the one already
normalized by `search_files`. -/
def lineHit (caseSens : Bool) (kw l : String) : Bool :=
  strIn kw (if caseSens then l else lowerStr l)

/-- `os.path.basename`, POSIX separator model. -/
def basename (s : String) : String :=
  String.mk ((s.toList.reverse.takeWhile (fun c => !(c == '/'))).reverse)

/-- Python `s.endswith(t)` for a single suffix. -/
def endsWithStr (s e : String) : Bool :=
  e.toList.reverse.isPrefixOf s.toList.reverse

/-- Python `s.endswith(tuple)`. -/
def endsWithAny (s : String) (exts : List String) : Bool :=
  exts.any (fun e => endsWithStr s e)

/-- `ARCHIVE_EXTS = ('.zip', '.7z')` (line 34). -/
def ARCHIVE_EXTS : List String := [".zip", ".7z"]

/-- A line stream for one source: the decoded lines it yields in order,
plus an optional read/decode exception (with its message) raised when the
consumer asks for the next line once `lines` is exhausted.  An exception
before the first line (e.g. in `detect_encoding` or at open) is the case
`lines = []`. -/
structure LineSrc where
  lines : List String
  err : Option String
deriving DecidableEq, Repr

/-- One member of an archive as enumerated by `zf.infolist()` /
`z.getnames()`; `isDir` models `info.is_dir()` (zip) and the trailing
separator test (7z). -/
structure Member where
  inner : String
  isDir : Bool
  src : LineSrc
deriving DecidableEq, Repr

/-- Archive view of a container file: its member list, or an open
failure caught by the outer `except` of `_process_archive`. -/
structure ArchData where
  members : List Member
  openErr : Option String
deriving DecidableEq, Repr

/-- A regular file yielded by the `os.walk` of `search_files`: its
basename `name`, full path, and its two possible decodings (as a plain
text file and as an archive container). -/
structure FileEntry where
  name : String
  path : String
  plainSrc : LineSrc
  archData : ArchData
deriving DecidableEq, Repr

/-- The cooperative stop flag as observed by the worker: checks are
numbered globally in the order the worker performs them, and with
`cancelAt = some c` every `stop_flag.is_set()` check from the `c`-th one
on sees the flag set; `cancelAt = none` is an uncancelled run. -/
def stopObs (cancelAt : Option Nat) (i : Nat) : Bool :=
  match cancelAt with
  | none => false
  | some c => decide (c ≤ i)

/-- State returned by one run of the per-source line loop. -/
structure LoopResult where
  found : Bool
  hits : List Row
  lastMatch : Option Row
  consumed : Nat
  nextCheck : Nat
  broke : Bool
deriving DecidableEq, Repr

/-- The per-source line loop shared by `_process_files` (lines 484-497)
and both archive branches of `_process_archive` (lines 365-378 and
411-424): pull the next line, check the stop flag, test the keyword and
apply the match policy (`match_once` replaces and breaks, `use_last`
overwrites `last_match_data`, otherwise append).  `n` counts lines
already handled, `chk` is the global check counter, and
`found`/`acc`/`last` carry `found_in_file` / `matches_in_*` /
`last_match_data`. -/
def lineLoop (p : Params) (hit : String → Bool) (mk : Nat → String → Row)
    (cancelAt : Option Nat) :
    List String → Nat → Nat → Bool → List Row → Option Row → LoopResult
  | [], _, chk, found, acc, last => ⟨found, acc, last, 0, chk, false⟩
  | l :: rest, n, chk, found, acc, last =>
    if stopObs cancelAt chk then ⟨found, acc, last, 1, chk + 1, true⟩
    else if hit l then
      if p.matchOnce then ⟨true, [mk (n + 1) l], last, 1, chk + 1, true⟩
      else if p.useLast then
        let r := lineLoop p hit mk cancelAt rest (n + 1) (chk + 1) true acc (some (mk (n + 1) l))
        ⟨r.found, r.hits, r.lastMatch, r.consumed + 1, r.nextCheck, r.broke⟩
      else
        let r := lineLoop p hit mk cancelAt rest (n + 1) (chk + 1) true (acc ++ [mk (n + 1) l]) last
        ⟨r.found, r.hits, r.lastMatch, r.consumed + 1, r.nextCheck, r.broke⟩
    else
      let r := lineLoop p hit mk cancelAt rest (n + 1) (chk + 1) found acc last
      ⟨r.found, r.hits, r.lastMatch, r.consumed + 1, r.nextCheck, r.broke⟩

/-- Rows written and match count contributed by one source. -/
structure MemOut where
  rows : List Row
  cnt : Nat
  nextChk : Nat
deriving DecidableEq, Repr

/-- Emission block of `_process_archive` for one member (lines 379-391
of the zip branch, 425-436 of the 7z branch), applied to the line-loop
outcome: on a read exception (`raised`) the member's match list is
replaced wholesale by one ERROR row; under `use_last` a remembered hit
replaces the list; rows are written when the list is non-empty or
`inc_nomatch` asks for a sentinel; the count adds only rows whose
line-number column is a real ordinal. -/
def memberEmit (p : Params) (locator fn : String) (errM : Option String)
    (r : LoopResult) : MemOut :=
  let raised := !r.broke && errM.isSome
  let ms :=
    if raised then
      [⟨locator, fn, LineNum.error, "Could not read member: " ++ errM.getD ""⟩]
    else if p.useLast then
      match r.lastMatch with
      | some lm => [lm]
      | none => r.hits
    else r.hits
  if !ms.isEmpty || (p.incNomatch && ms.isEmpty) then
    let ms2 :=
      if ms.isEmpty && p.incNomatch then [⟨locator, fn, LineNum.sentinel, "[No match found]"⟩]
      else ms
    ⟨ms2, (ms2.filter (fun row => row.lineNum.isNum)).length, r.nextCheck⟩
  else ⟨[], 0, r.nextCheck⟩

/-- Processing of one eligible archive member: the line loop of
`_process_archive` followed by its emission block. -/
def runMember (p : Params) (kw archPath : String) (m : Member)
    (cancelAt : Option Nat) (chk : Nat) : MemOut :=
  let locator := archPath ++ "::" ++ m.inner
  let fn := basename m.inner
  memberEmit p locator fn m.src.err
    (lineLoop p (lineHit p.caseSens kw)
      (fun n l => ⟨locator, fn, LineNum.num n, rstripNl l⟩) cancelAt m.src.lines 0 chk false [] none)

/-- Emission block of `_process_files` for one plain file (lines
500-510), applied to the line-loop outcome.  Unlike the archive path,
on a read exception the ERROR row is *appended* to the matches
collected so far, emission is gated by `found_in_file or (inc_nomatch
and not matches_in_file)`, and the count adds `len(matches_in_file)`
whenever `found_in_file` is set. -/
def plainEmit (p : Params) (path fn : String) (errM : Option String)
    (r : LoopResult) : MemOut :=
  let raised := !r.broke && errM.isSome
  let ms :=
    if raised then
      r.hits ++ [⟨path, fn, LineNum.error, "Could not read file: " ++ errM.getD ""⟩]
    else if p.useLast then
      match r.lastMatch with
      | some lm => [lm]
      | none => r.hits
    else r.hits
  if r.found || (p.incNomatch && ms.isEmpty) then
    let ms2 :=
      if ms.isEmpty && p.incNomatch then ms ++ [⟨path, fn, LineNum.sentinel, "[No match found]"⟩]
      else ms
    ⟨ms2, if r.found then ms2.length else 0, r.nextCheck⟩
  else ⟨[], 0, r.nextCheck⟩

/-- Processing of one plain file, `_process_files` lines 470-510: the
line loop followed by the plain-file emission block.  `os.path.relpath`
is modelled as the identity on the stored path. -/
def runPlain (p : Params) (kw : String) (e : FileEntry)
    (cancelAt : Option Nat) (chk : Nat) : MemOut :=
  let fn := basename e.path
  plainEmit p e.path fn e.plainSrc.err
    (lineLoop p (lineHit p.caseSens kw)
      (fun n l => ⟨e.path, fn, LineNum.num n, rstripNl l⟩) cancelAt e.plainSrc.lines 0 chk false [] none)

/-- One preview append guarded by the 1000-row cap: `maybe_preview` in
`_process_archive` (lines 345-347) and the inline test of
`_process_files` (line 508). -/
def previewAdd (showAll : Bool) (pv : List Row) (r : Row) : List Row :=
  if showAll || decide (pv.length < 1000) then pv ++ [r] else pv

/-- Preview-append a batch of rows in order. -/
def previewAddAll (showAll : Bool) (pv : List Row) (rs : List Row) : List Row :=
  rs.foldl (previewAdd showAll) pv

/-- Output of `_process_archive`: rows written, the archive-local
preview list, the archive's match count, and the advanced check
counter. -/
structure ArchOut where
  rows : List Row
  pv : List Row
  cnt : Nat
  nextChk : Nat
deriving DecidableEq, Repr

/-- The member loop of `_process_archive`: skip directory entries and
members whose lowered inner name is not in the extension allow-list,
process the rest in enumeration order. -/
def runMembers (p : Params) (kw : String) (exts : List String) (archPath : String)
    (cancelAt : Option Nat) :
    List Member → Nat → List Row → List Row → Nat → ArchOut
  | [], chk, rows, pv, cnt => ⟨rows, pv, cnt, chk⟩
  | m :: rest, chk, rows, pv, cnt =>
    if m.isDir || !(endsWithAny (lowerStr m.inner) exts) then
      runMembers p kw exts archPath cancelAt rest chk rows pv cnt
    else
      let o := runMember p kw archPath m cancelAt chk
      runMembers p kw exts archPath cancelAt rest o.nextChk (rows ++ o.rows)
        (previewAddAll p.showAll pv o.rows) (cnt + o.cnt)

/-- `_process_archive` (lines 337-444): scan one archive container; an
open failure is caught by the outer `except` and yields a single ERROR
row for the archive itself. -/
def runArchive (p : Params) (kw : String) (exts : List String) (e : FileEntry)
    (cancelAt : Option Nat) (chk : Nat) : ArchOut :=
  match e.archData.openErr with
  | some msg =>
    let row : Row := ⟨e.path, basename e.path, LineNum.error, "Could not open archive: " ++ msg⟩
    ⟨[row], previewAddAll p.showAll [] [row], 0, chk⟩
  | none => runMembers p kw exts e.path cancelAt e.archData.members chk [] [] 0

/-- Running state of the `_process_files` loop: rows written to the
durable temporary CSV, the in-memory preview, `match_count`, and the
global check counter. -/
structure ScanSt where
  durable : List Row
  preview : List Row
  cnt : Nat
  chk : Nat
deriving DecidableEq, Repr

/-- Body of one iteration of the `_process_files` loop (lines 456-510):
dispatch the entry to the archive path (when its lowered path has an
archive suffix and archive search is on) or to the plain-file path, then
merge durable rows, preview (with the cap unless `show_all`), and
count. -/
def processEntry (p : Params) (kw : String) (toggle : Bool) (exts : List String)
    (cancelAt : Option Nat) (st : ScanSt) (e : FileEntry) : ScanSt :=
  if endsWithAny (lowerStr e.path) ARCHIVE_EXTS && toggle then
    let a := runArchive p kw exts e cancelAt st.chk
    ⟨st.durable ++ a.rows,
     if p.showAll then st.preview ++ a.pv
     else st.preview ++ a.pv.take (1000 - st.preview.length),
     st.cnt + a.cnt, a.nextChk⟩
  else
    let r := runPlain p kw e cancelAt st.chk
    ⟨st.durable ++ r.rows, previewAddAll p.showAll st.preview r.rows, st.cnt + r.cnt, r.nextChk⟩

/-- The `for i, file_path in enumerate(file_list, 1)` loop of
`_process_files` with its per-file stop check (lines 452-454). -/
def scanGo (p : Params) (kw : String) (toggle : Bool) (exts : List String)
    (cancelAt : Option Nat) : List FileEntry → ScanSt → ScanSt
  | [], st => st
  | e :: rest, st =>
    if stopObs cancelAt st.chk then ⟨st.durable, st.preview, st.cnt, st.chk + 1⟩
    else scanGo p kw toggle exts cancelAt rest
      (processEntry p kw toggle exts cancelAt ⟨st.durable, st.preview, st.cnt, st.chk + 1⟩ e)

/-- The classified file lists built by `search_files` (lines 251-262):
an entry whose lowered basename has an archive suffix goes to
`archive_files` when archive search is on, else to `normal_files` when
its suffix is in the allow-list; walk order is preserved inside each
list. -/
structure Classified where
  normals : List FileEntry
  archives : List FileEntry
deriving DecidableEq, Repr

/-- The walk-and-classify loop of `search_files`. -/
def buildLists (toggle : Bool) (exts : List String) : List FileEntry → Classified
  | [] => ⟨[], []⟩
  | e :: rest =>
    let c := buildLists toggle exts rest
    if endsWithAny (lowerStr e.name) ARCHIVE_EXTS && toggle then ⟨c.normals, e :: c.archives⟩
    else if endsWithAny (lowerStr e.name) exts then ⟨e :: c.normals, c.archives⟩
    else c

/-- `file_list = normal_files + archive_files` (line 262). -/
def fileList (toggle : Bool) (exts : List String) (walked : List FileEntry) : List FileEntry :=
  (buildLists toggle exts walked).normals ++ (buildLists toggle exts walked).archives

/-- Final outcome of a scan. -/
structure ScanOut where
  durable : List Row
  preview : List Row
  cnt : Nat
deriving DecidableEq, Repr

/-- `search_files` (lines 234-305): normalize the keyword per the
case-sensitivity flag, classify the walked files, run the processing
loop.  `walked` is the sequence of regular files yielded by the
recursive `os.walk`, in walk order. -/
def searchFiles (p : Params) (kw : String) (toggle : Bool) (exts : List String)
    (walked : List FileEntry) (cancelAt : Option Nat) : ScanOut :=
  let kw2 := if p.caseSens then kw else lowerStr kw
  let st := scanGo p kw2 toggle exts cancelAt (fileList toggle exts walked) ⟨[], [], 0, 0⟩
  ⟨st.durable, st.preview, st.cnt⟩

/-- The 1-based numbers of the lines (from line n+1 on) satisfying the
hit test, in increasing order. -/
def hitNumsAux (hit : String → Bool) : List String → Nat → List Nat
  | [], _ => []
  | l :: rest, n => (if hit l then [n + 1] else []) ++ hitNumsAux hit rest (n + 1)

/-- The 1-based numbers of the lines of a source satisfying the hit test. -/
def hitNums (hit : String → Bool) (ls : List String) : List Nat :=
  hitNumsAux hit ls 0

/-- The rows the default policy produces, one per hit line in order. -/
def hitRowsAux (hit : String → Bool) (mk : Nat → String → Row) :
    List String → Nat → List Row
  | [], _ => []
  | l :: rest, n => (if hit l then [mk (n + 1) l] else []) ++ hitRowsAux hit mk rest (n + 1)

/-- The row of the last hit line, if any. -/
def lastHitRow (hit : String → Bool) (mk : Nat → String → Row) :
    List String → Nat → Option Row
  | [], _ => none
  | l :: rest, n =>
    match lastHitRow hit mk rest (n + 1) with
    | some r => some r
    | none => if hit l then some (mk (n + 1) l) else none

/-- 0-based index of the first hit line, if any. -/
def firstHitIdx (hit : String → Bool) : List String → Option Nat
  | [] => none
  | l :: rest => if hit l then some 0 else (firstHitIdx hit rest).map (fun i => i + 1)

/-- First-some choice on options. -/
def olast : Option Row → Option Row → Option Row
  | some r, _ => some r
  | none, d => d

/-- Archive-level I/O operation performed while scanning a 7z archive, the
vocabulary needed to compare the code's access strategy with the spec's. -/
inductive SzOp where
  | openArchive : SzOp
  | readMemberIntoMemory : String → SzOp
  | extractAllToDir : SzOp
deriving DecidableEq, Repr

/-- Is a 7z member name eligible (`_process_archive` lines 402-405):
not a directory name and its lowered form ends in an allowed suffix? -/
def szEligible (exts : List String) (inner : String) : Bool :=
  !(endsWithStr inner "/" || endsWithStr inner "\\") && endsWithAny (lowerStr inner) exts

/-- The archive-level I/O trace of the 7z branch of `_process_archive`
(lines 400-436) together with `_iter_7z_member_lines` (lines 320-335):
one open for `z.getnames()`, then, per eligible member, a fresh
`py7zr.SevenZipFile` open followed by `z.read([member_name])`, which
buffers that single member in memory (`io.BytesIO`). -/
def sevenZipTrace (exts : List String) (inners : List String) : List SzOp :=
  SzOp.openArchive ::
    (inners.filter (szEligible exts)).flatMap
      (fun inner => [SzOp.openArchive, SzOp.readMemberIntoMemory inner])

/-- Modelled from the spec: the 7z access strategy §4.4 describes — the
scan "extracts the *entire archive* to a scratch directory once, then
enumerates extracted files as plain files", i.e. one open, one full
extraction, and no per-member streaming from the archive. -/
def specSevenZipTrace (_exts : List String) (_inners : List String) : List SzOp :=
  [SzOp.openArchive, SzOp.extractAllToDir]

/-! ### Basic lemmas about the per-source line loop -/

@[simp]
theorem stopObs_none (i : Nat) : stopObs none i = false := rfl

@[simp]
theorem stopObs_some (c i : Nat) : stopObs (some c) i = decide (c ≤ i) := rfl

/-- The check counter after the loop is the entry counter plus the number
of lines consumed. -/
theorem loop_nextCheck (p : Params) (hit : String → Bool) (mk : Nat → String → Row)
    (ca : Option Nat) (ls : List String) (n chk : Nat) (found : Bool)
    (acc : List Row) (last : Option Row) :
    (lineLoop p hit mk ca ls n chk found acc last).nextCheck
      = chk + (lineLoop p hit mk ca ls n chk found acc last).consumed := by
  induction ls generalizing n chk found acc last with
  | nil => simp [lineLoop]
  | cons l rest ih =>
    simp only [lineLoop]
    by_cases hs : stopObs ca chk = true
    · simp [hs]
    · simp only [Bool.not_eq_true] at hs
      by_cases hl : hit l = true
      · by_cases hmo : p.matchOnce = true
        · simp [hs, hl, hmo]
        · simp only [Bool.not_eq_true] at hmo
          by_cases hul : p.useLast = true
          · simp only [hs, hl, hmo, hul, Bool.false_eq_true, if_false, if_true]
            rw [ih]; omega
          · simp only [Bool.not_eq_true] at hul
            simp only [hs, hl, hmo, hul, Bool.false_eq_true, if_false, if_true]
            rw [ih]; omega
      · simp only [Bool.not_eq_true] at hl
        simp only [hs, hl, Bool.false_eq_true, if_false]
        rw [ih]; omega

/-- Closed form of the loop for the default policy on an uncancelled
run: every hit line yields a row, appended in order. -/
theorem loop_default_none (p : Params) (hit : String → Bool) (mk : Nat → String → Row)
    (hmo : p.matchOnce = false) (hul : p.useLast = false)
    (ls : List String) (n chk : Nat) (found : Bool) (acc : List Row) (last : Option Row) :
    lineLoop p hit mk none ls n chk found acc last
      = ⟨found || ls.any hit, acc ++ hitRowsAux hit mk ls n, last,
         ls.length, chk + ls.length, false⟩ := by
  induction ls generalizing n chk found acc last with
  | nil => simp [lineLoop, hitRowsAux]
  | cons l rest ih =>
    by_cases hl : hit l = true
    · simp [lineLoop, hmo, hul, hl, ih, hitRowsAux, List.append_assoc]
      omega
    · simp only [Bool.not_eq_true] at hl
      simp [lineLoop, hl, ih, hitRowsAux]
      omega

/-- Closed form of the loop for the `use_last` policy on an uncancelled
run: no row is accumulated, `last_match_data` holds the last hit. -/
theorem loop_useLast_none (p : Params) (hit : String → Bool) (mk : Nat → String → Row)
    (hmo : p.matchOnce = false) (hul : p.useLast = true)
    (ls : List String) (n chk : Nat) (found : Bool) (acc : List Row) (last : Option Row) :
    lineLoop p hit mk none ls n chk found acc last
      = ⟨found || ls.any hit, acc, olast (lastHitRow hit mk ls n) last,
         ls.length, chk + ls.length, false⟩ := by
  induction ls generalizing n chk found acc last with
  | nil => simp [lineLoop, lastHitRow, olast]
  | cons l rest ih =>
    cases ht : lastHitRow hit mk rest (n + 1) with
    | none =>
      by_cases hl : hit l = true
      · simp only [lineLoop, stopObs_none, Bool.false_eq_true, if_false, hl, if_true, hmo, hul,
          ih, ht, lastHitRow]
        simp [hl, olast, LoopResult.mk.injEq]
        omega
      · simp only [Bool.not_eq_true] at hl
        simp only [lineLoop, stopObs_none, Bool.false_eq_true, if_false, hl, ih, ht, lastHitRow]
        simp [hl, olast, LoopResult.mk.injEq]
        omega
    | some r =>
      by_cases hl : hit l = true
      · simp only [lineLoop, stopObs_none, Bool.false_eq_true, if_false, hl, if_true, hmo, hul,
          ih, ht, lastHitRow]
        simp [hl, olast, LoopResult.mk.injEq]
        omega
      · simp only [Bool.not_eq_true] at hl
        simp only [lineLoop, stopObs_none, Bool.false_eq_true, if_false, hl, ih, ht, lastHitRow]
        simp [hl, olast, LoopResult.mk.injEq]
        omega

/-- Closed form of the loop for the `match_once` policy on an
uncancelled run: stop at the first hit. -/
theorem loop_matchOnce_none (p : Params) (hit : String → Bool) (mk : Nat → String → Row)
    (hmo : p.matchOnce = true)
    (ls : List String) (n chk : Nat) (found : Bool) (acc : List Row) (last : Option Row) :
    lineLoop p hit mk none ls n chk found acc last
      = match firstHitIdx hit ls with
        | none => ⟨found, acc, last, ls.length, chk + ls.length, false⟩
        | some i => ⟨true, [mk (n + i + 1) (ls.getD i "")], last, i + 1, chk + i + 1, true⟩ := by
  induction ls generalizing n chk found acc last with
  | nil => simp [lineLoop, firstHitIdx]
  | cons l rest ih =>
    by_cases hl : hit l = true
    · simp [lineLoop, hl, hmo, firstHitIdx]
    · simp only [Bool.not_eq_true] at hl
      simp only [lineLoop, stopObs_none, Bool.false_eq_true, if_false, hl, ih, firstHitIdx]
      cases hfi : firstHitIdx hit rest with
      | none =>
        simp [LoopResult.mk.injEq]
        omega
      | some i =>
        have harith : n + 1 + i + 1 = n + (i + 1) + 1 := by omega
        simp [LoopResult.mk.injEq, List.getD_cons_succ, harith]
        omega

/-- Under `match_once`, on any run (cancelled or not) the loop either
records nothing or stops at the global first hit, consuming exactly up
to it. -/
theorem loop_matchOnce_cases (p : Params) (hit : String → Bool) (mk : Nat → String → Row)
    (ca : Option Nat) (hmo : p.matchOnce = true) :
    ∀ (ls : List String) (n chk : Nat) (found : Bool) (last : Option Row),
      (lineLoop p hit mk ca ls n chk found [] last
          = ⟨found, [], last, (lineLoop p hit mk ca ls n chk found [] last).consumed,
             (lineLoop p hit mk ca ls n chk found [] last).nextCheck,
             (lineLoop p hit mk ca ls n chk found [] last).broke⟩)
      ∨ (∃ i, i < ls.length ∧ hit (ls.getD i "") = true
          ∧ (∀ j, j < i → hit (ls.getD j "") = false)
          ∧ lineLoop p hit mk ca ls n chk found [] last
              = ⟨true, [mk (n + i + 1) (ls.getD i "")], last, i + 1, chk + i + 1, true⟩) := by
  intro ls
  induction ls with
  | nil => intro n chk found last; left; simp [lineLoop]
  | cons l rest ih =>
    intro n chk found last
    by_cases hs : stopObs ca chk = true
    · left; simp [lineLoop, hs]
    · simp only [Bool.not_eq_true] at hs
      by_cases hl : hit l = true
      · right
        refine ⟨0, by simp, by simpa using hl, by omega, ?_⟩
        simp [lineLoop, hs, hl, hmo]
      · simp only [Bool.not_eq_true] at hl
        rcases ih (n + 1) (chk + 1) found last with h | ⟨i, hi, hhit, hbef, heq⟩
        · left
          simp only [lineLoop, stopObs_none, hs, Bool.false_eq_true, if_false, hl]
          rw [h]
        · right
          refine ⟨i + 1, by simpa using hi, by simpa using hhit, ?_, ?_⟩
          · intro j hj
            cases j with
            | zero => simpa using hl
            | succ j => simpa using hbef j (by omega)
          · simp only [lineLoop, stopObs_none, hs, Bool.false_eq_true, if_false, hl]
            rw [heq]
            simp [LoopResult.mk.injEq]
            constructor
            · congr 1
              omega
            · omega

/-- The `found` flag is monotone: once set it stays set. -/
theorem loop_found_mono (p : Params) (hit : String → Bool) (mk : Nat → String → Row)
    (ca : Option Nat) :
    ∀ (ls : List String) (n chk : Nat) (acc : List Row) (last : Option Row),
      (lineLoop p hit mk ca ls n chk true acc last).found = true := by
  intro ls
  induction ls with
  | nil => intro n chk acc last; simp [lineLoop]
  | cons l rest ih =>
    intro n chk acc last
    by_cases hs : stopObs ca chk = true
    · simp [lineLoop, hs]
    · simp only [Bool.not_eq_true] at hs
      by_cases hl : hit l = true
      · by_cases hmo : p.matchOnce = true
        · simp [lineLoop, hs, hl, hmo]
        · simp only [Bool.not_eq_true] at hmo
          by_cases hul : p.useLast = true
          · simp [lineLoop, hs, hl, hmo, hul, ih]
          · simp only [Bool.not_eq_true] at hul
            simp [lineLoop, hs, hl, hmo, hul, ih]
      · simp only [Bool.not_eq_true] at hl
        simp [lineLoop, hs, hl, ih]

/-- If the loop never set `found`, it recorded nothing: the match list
and `last_match_data` leave as they entered. -/
theorem loop_found_false (p : Params) (hit : String → Bool) (mk : Nat → String → Row)
    (ca : Option Nat) :
    ∀ (ls : List String) (n chk : Nat) (found : Bool) (acc : List Row) (last : Option Row),
      (lineLoop p hit mk ca ls n chk found acc last).found = false →
      (lineLoop p hit mk ca ls n chk found acc last).hits = acc
        ∧ (lineLoop p hit mk ca ls n chk found acc last).lastMatch = last := by
  intro ls
  induction ls with
  | nil => intro n chk found acc last _; simp [lineLoop]
  | cons l rest ih =>
    intro n chk found acc last hf
    by_cases hs : stopObs ca chk = true
    · simp [lineLoop, hs]
    · simp only [Bool.not_eq_true] at hs
      by_cases hl : hit l = true
      · exfalso
        by_cases hmo : p.matchOnce = true
        · simp [lineLoop, hs, hl, hmo] at hf
        · simp only [Bool.not_eq_true] at hmo
          by_cases hul : p.useLast = true
          · simp only [lineLoop, hs, hl, hmo, hul, Bool.false_eq_true, if_false, if_true,
              stopObs_none] at hf
            rw [loop_found_mono] at hf
            exact Bool.true_eq_false.mp hf
          · simp only [Bool.not_eq_true] at hul
            simp only [lineLoop, hs, hl, hmo, hul, Bool.false_eq_true, if_false, if_true,
              stopObs_none] at hf
            rw [loop_found_mono] at hf
            exact Bool.true_eq_false.mp hf
      · simp only [Bool.not_eq_true] at hl
        simp only [lineLoop, hs, hl, Bool.false_eq_true, if_false, stopObs_none] at hf ⊢
        exact ih (n + 1) (chk + 1) found acc last hf


/-- If the cancellation point lies at or beyond every check the
uncancelled loop performs, the cancelled loop behaves identically. -/
theorem loop_eq_of_late (p : Params) (hit : String → Bool) (mk : Nat → String → Row)
    (c : Nat) :
    ∀ (ls : List String) (n chk : Nat) (found : Bool) (acc : List Row) (last : Option Row),
      (lineLoop p hit mk none ls n chk found acc last).nextCheck ≤ c →
      lineLoop p hit mk (some c) ls n chk found acc last
        = lineLoop p hit mk none ls n chk found acc last := by
  intro ls
  induction ls with
  | nil => intro n chk found acc last _; simp [lineLoop]
  | cons l rest ih =>
    intro n chk found acc last hc
    have hchk : chk < c := by
      have h1 := loop_nextCheck p hit mk none (l :: rest) n chk found acc last
      have h2 : 1 ≤ (lineLoop p hit mk none (l :: rest) n chk found acc last).consumed := by
        simp only [lineLoop, stopObs_none, Bool.false_eq_true, if_false]
        by_cases hl : hit l = true
        · by_cases hmo : p.matchOnce = true
          · simp [hl, hmo]
          · simp only [Bool.not_eq_true] at hmo
            by_cases hul : p.useLast = true
            · simp [hl, hmo, hul]
            · simp only [Bool.not_eq_true] at hul
              simp [hl, hmo, hul]
        · simp only [Bool.not_eq_true] at hl
          simp [hl]
      omega
    have hs : stopObs (some c) chk = false := by simp; omega
    by_cases hl : hit l = true
    · by_cases hmo : p.matchOnce = true
      · simp [lineLoop, hs, hl, hmo]
      · simp only [Bool.not_eq_true] at hmo
        by_cases hul : p.useLast = true
        · simp only [lineLoop, hs, hl, hmo, hul, Bool.false_eq_true, if_false, if_true,
            stopObs_none]
          rw [ih]
          have := loop_nextCheck p hit mk none (l :: rest) n chk found acc last
          simp only [lineLoop, stopObs_none, Bool.false_eq_true, if_false, hl, hmo, hul,
            if_true] at hc
          exact hc
        · simp only [Bool.not_eq_true] at hul
          simp only [lineLoop, hs, hl, hmo, hul, Bool.false_eq_true, if_false, if_true,
            stopObs_none]
          rw [ih]
          simp only [lineLoop, stopObs_none, Bool.false_eq_true, if_false, hl, hmo, hul,
            if_true] at hc
          exact hc
    · simp only [Bool.not_eq_true] at hl
      simp only [lineLoop, hs, hl, Bool.false_eq_true, if_false, stopObs_none]
      rw [ih]
      simp only [lineLoop, stopObs_none, Bool.false_eq_true, if_false, hl] at hc
      exact hc

/-- A loop entered with the stop flag already observable breaks at once
(after one line read) or, on an empty stream, falls through. -/
theorem loop_stopped (p : Params) (hit : String → Bool) (mk : Nat → String → Row)
    (c : Nat) (ls : List String) (n chk : Nat) (found : Bool) (acc : List Row)
    (last : Option Row) (hc : c ≤ chk) :
    lineLoop p hit mk (some c) ls n chk found acc last
      = match ls with
        | [] => ⟨found, acc, last, 0, chk, false⟩
        | _ :: _ => ⟨found, acc, last, 1, chk + 1, true⟩ := by
  cases ls with
  | nil => simp [lineLoop]
  | cons l rest => simp [lineLoop, hc]

/-- Cancellation disjunction for the non-`use_last` policies: a
cancelled loop either never observes the flag and equals the
uncancelled loop, or it breaks with a match list that is an initial
segment of the uncancelled one. -/
theorem loop_cancel (p : Params) (hit : String → Bool) (mk : Nat → String → Row)
    (c : Nat) (hul : p.useLast = false) :
    ∀ (ls : List String) (n chk : Nat) (found : Bool) (acc : List Row) (last : Option Row),
      (p.matchOnce = true → acc = []) →
      lineLoop p hit mk (some c) ls n chk found acc last
          = lineLoop p hit mk none ls n chk found acc last
      ∨ (c < (lineLoop p hit mk (some c) ls n chk found acc last).nextCheck
          ∧ (lineLoop p hit mk (some c) ls n chk found acc last).broke = true
          ∧ (∃ t, (lineLoop p hit mk none ls n chk found acc last).hits
                = (lineLoop p hit mk (some c) ls n chk found acc last).hits ++ t)
          ∧ ((lineLoop p hit mk (some c) ls n chk found acc last).found = true →
              (lineLoop p hit mk none ls n chk found acc last).found = true)) := by
  intro ls
  induction ls with
  | nil => intro n chk found acc last _; left; rfl
  | cons l rest ih =>
    intro n chk found acc last hacc
    by_cases hs : c ≤ chk
    · right
      have hrw : lineLoop p hit mk (some c) (l :: rest) n chk found acc last
          = ⟨found, acc, last, 1, chk + 1, true⟩ := by
        have := loop_stopped p hit mk c (l :: rest) n chk found acc last hs
        simpa using this
      rw [hrw]
      refine ⟨by simp; omega, rfl, ?_, ?_⟩
      · by_cases hmo : p.matchOnce = true
        · have hae := hacc hmo
          subst hae
          rcases loop_matchOnce_cases p hit mk none hmo (l :: rest) n chk found last
            with h | ⟨i, _, _, _, heq⟩
          · rw [h]; exact ⟨[], by simp⟩
          · rw [heq]; exact ⟨[mk (n + i + 1) ((l :: rest).getD i "")], by simp⟩
        · simp only [Bool.not_eq_true] at hmo
          rw [loop_default_none p hit mk hmo hul]
          exact ⟨hitRowsAux hit mk (l :: rest) n, rfl⟩
      · intro hf
        simp only at hf
        by_cases hmo : p.matchOnce = true
        · have hae := hacc hmo
          subst hae
          rcases loop_matchOnce_cases p hit mk none hmo (l :: rest) n chk found last
            with h | ⟨i, _, _, _, heq⟩
          · rw [h]; exact hf
          · rw [heq]
        · simp only [Bool.not_eq_true] at hmo
          rw [loop_default_none p hit mk hmo hul]
          simp [hf]
    · have hstop : stopObs (some c) chk = false := by simp; omega
      by_cases hl : hit l = true
      · by_cases hmo : p.matchOnce = true
        · left
          simp [lineLoop, hstop, hl, hmo]
        · simp only [Bool.not_eq_true] at hmo
          rcases ih (n + 1) (chk + 1) true (acc ++ [mk (n + 1) l]) last
              (fun h => absurd h (by simp [hmo])) with h | ⟨h1, h2, ⟨t, h3⟩, h4⟩
          · left
            simp only [lineLoop, hstop, hl, hmo, hul, stopObs_none, Bool.false_eq_true,
              if_false, if_true]
            rw [h]
          · right
            simp only [lineLoop, hstop, hl, hmo, hul, stopObs_none, Bool.false_eq_true,
              if_false, if_true]
            exact ⟨h1, h2, ⟨t, h3⟩, h4⟩
      · simp only [Bool.not_eq_true] at hl
        rcases ih (n + 1) (chk + 1) found acc last hacc with h | ⟨h1, h2, ⟨t, h3⟩, h4⟩
        · left
          simp only [lineLoop, hstop, hl, stopObs_none, Bool.false_eq_true, if_false]
          rw [h]
        · right
          simp only [lineLoop, hstop, hl, stopObs_none, Bool.false_eq_true, if_false]
          exact ⟨h1, h2, ⟨t, h3⟩, h4⟩


/-- Under the default policy, a loop that set `found` left a non-empty
match list (given the invariant that `found` entering implies a
non-empty list entering). -/
theorem loop_found_hits (p : Params) (hit : String → Bool) (mk : Nat → String → Row)
    (ca : Option Nat) (hmo : p.matchOnce = false) (hul : p.useLast = false) :
    ∀ (ls : List String) (n chk : Nat) (found : Bool) (acc : List Row) (last : Option Row),
      (found = true → acc ≠ []) →
      (lineLoop p hit mk ca ls n chk found acc last).found = true →
      (lineLoop p hit mk ca ls n chk found acc last).hits ≠ [] := by
  intro ls
  induction ls with
  | nil => intro n chk found acc last hinv hf; simp only [lineLoop] at hf ⊢; exact hinv hf
  | cons l rest ih =>
    intro n chk found acc last hinv hf
    by_cases hs : stopObs ca chk = true
    · simp only [lineLoop, hs, if_true] at hf ⊢
      exact hinv hf
    · simp only [Bool.not_eq_true] at hs
      by_cases hl : hit l = true
      · simp only [lineLoop, hs, hl, hmo, hul, Bool.false_eq_true, if_false, if_true] at hf ⊢
        exact ih (n + 1) (chk + 1) true (acc ++ [mk (n + 1) l]) last (by simp) hf
      · simp only [Bool.not_eq_true] at hl
        simp only [lineLoop, hs, hl, Bool.false_eq_true, if_false] at hf ⊢
        exact ih (n + 1) (chk + 1) found acc last hinv hf

/-- Under `use_last`, a loop that set `found` left `last_match_data`
set (given the matching entry invariant). -/
theorem loop_found_last (p : Params) (hit : String → Bool) (mk : Nat → String → Row)
    (ca : Option Nat) (hmo : p.matchOnce = false) (hul : p.useLast = true) :
    ∀ (ls : List String) (n chk : Nat) (found : Bool) (acc : List Row) (last : Option Row),
      (found = true → last.isSome = true) →
      (lineLoop p hit mk ca ls n chk found acc last).found = true →
      (lineLoop p hit mk ca ls n chk found acc last).lastMatch.isSome = true := by
  intro ls
  induction ls with
  | nil => intro n chk found acc last hinv hf; simp only [lineLoop] at hf ⊢; exact hinv hf
  | cons l rest ih =>
    intro n chk found acc last hinv hf
    by_cases hs : stopObs ca chk = true
    · simp only [lineLoop, hs, if_true] at hf ⊢
      exact hinv hf
    · simp only [Bool.not_eq_true] at hs
      by_cases hl : hit l = true
      · simp only [lineLoop, hs, hl, hmo, hul, Bool.false_eq_true, if_false, if_true] at hf ⊢
        exact ih (n + 1) (chk + 1) true acc (some (mk (n + 1) l)) (by simp) hf
      · simp only [Bool.not_eq_true] at hl
        simp only [lineLoop, hs, hl, Bool.false_eq_true, if_false] at hf ⊢
        exact ih (n + 1) (chk + 1) found acc last hinv hf

/-- Every row the loop records is one the row maker built, so its
line-number column is a real ordinal. -/
theorem loop_rows_real (p : Params) (hit : String → Bool) (mk : Nat → String → Row)
    (ca : Option Nat) (hmk : ∀ n l, (mk n l).lineNum.isNum = true) :
    ∀ (ls : List String) (n chk : Nat) (found : Bool) (acc : List Row) (last : Option Row),
      (∀ r, r ∈ acc → r.lineNum.isNum = true) →
      (∀ r, last = some r → r.lineNum.isNum = true) →
      (∀ r, r ∈ (lineLoop p hit mk ca ls n chk found acc last).hits → r.lineNum.isNum = true)
      ∧ (∀ r, (lineLoop p hit mk ca ls n chk found acc last).lastMatch = some r →
          r.lineNum.isNum = true) := by
  intro ls
  induction ls with
  | nil =>
    intro n chk found acc last hacc hlast
    simp only [lineLoop]
    exact ⟨hacc, hlast⟩
  | cons l rest ih =>
    intro n chk found acc last hacc hlast
    by_cases hs : stopObs ca chk = true
    · simp only [lineLoop, hs, if_true]
      exact ⟨hacc, hlast⟩
    · simp only [Bool.not_eq_true] at hs
      by_cases hl : hit l = true
      · by_cases hmo : p.matchOnce = true
        · simp only [lineLoop, hs, hl, hmo, Bool.false_eq_true, if_false, if_true]
          constructor
          · intro r hr
            simp only [List.mem_singleton] at hr
            subst hr
            exact hmk _ _
          · exact hlast
        · simp only [Bool.not_eq_true] at hmo
          by_cases hul : p.useLast = true
          · simp only [lineLoop, hs, hl, hmo, hul, Bool.false_eq_true, if_false, if_true]
            exact ih (n + 1) (chk + 1) true acc (some (mk (n + 1) l)) hacc
              (fun r hr => by cases hr; exact hmk _ _)
          · simp only [Bool.not_eq_true] at hul
            simp only [lineLoop, hs, hl, hmo, hul, Bool.false_eq_true, if_false, if_true]
            refine ih (n + 1) (chk + 1) true (acc ++ [mk (n + 1) l]) last ?_ hlast
            intro r hr
            rcases List.mem_append.mp hr with h | h
            · exact hacc r h
            · simp only [List.mem_singleton] at h
              subst h
              exact hmk _ _
      · simp only [Bool.not_eq_true] at hl
        simp only [lineLoop, hs, hl, Bool.false_eq_true, if_false]
        exact ih (n + 1) (chk + 1) found acc last hacc hlast

/-- Every number recorded for lines from line `n+1` on is above `n`. -/
theorem hitNumsAux_bound (hit : String → Bool) :
    ∀ (ls : List String) (n m : Nat), m ∈ hitNumsAux hit ls n → n + 1 ≤ m := by
  intro ls
  induction ls with
  | nil => intro n m hm; simp [hitNumsAux] at hm
  | cons l rest ih =>
    intro n m hm
    simp only [hitNumsAux, List.mem_append] at hm
    rcases hm with hm | hm
    · by_cases hl : hit l = true
      · simp [hl] at hm
        omega
      · simp only [Bool.not_eq_true] at hl
        simp [hl] at hm
    · have := ih (n + 1) m hm
      omega

/-- `lastHitRow` is `none` exactly when no line hits, and otherwise it
is the row of the greatest hit line number. -/
theorem lastHitRow_spec (hit : String → Bool) (mk : Nat → String → Row) :
    ∀ (ls : List String) (n : Nat),
      (lastHitRow hit mk ls n = none → hitNumsAux hit ls n = [])
      ∧ (∀ r, lastHitRow hit mk ls n = some r →
          ∃ k, r = mk k (ls.getD (k - n - 1) "") ∧ k ∈ hitNumsAux hit ls n
            ∧ ∀ m, m ∈ hitNumsAux hit ls n → m ≤ k) := by
  intro ls
  induction ls with
  | nil => intro n; simp [lastHitRow, hitNumsAux]
  | cons l rest ih =>
    intro n
    rcases ih (n + 1) with ⟨ihn, ihs⟩
    constructor
    · intro h0
      simp only [lastHitRow] at h0
      cases ht : lastHitRow hit mk rest (n + 1) with
      | some r => rw [ht] at h0; exact absurd h0 (by simp)
      | none =>
        rw [ht] at h0
        by_cases hl : hit l = true
        · rw [if_pos hl] at h0; exact absurd h0 (by simp)
        · simp only [Bool.not_eq_true] at hl
          simp [hitNumsAux, hl, ihn ht]
    · intro r hr
      simp only [lastHitRow] at hr
      cases ht : lastHitRow hit mk rest (n + 1) with
      | some r2 =>
        rw [ht] at hr
        simp only [Option.some.injEq] at hr
        rcases ihs r2 ht with ⟨k, hk1, hk2, hk3⟩
        subst hr
        have hkb := hitNumsAux_bound hit rest (n + 1) k hk2
        refine ⟨k, ?_, ?_, ?_⟩
        · rw [hk1]
          congr 1
          have hidx : k - n - 1 = (k - n - 2) + 1 := by omega
          rw [hidx, List.getD_cons_succ]
          congr 1
        · simp only [hitNumsAux, List.mem_append]
          right
          exact hk2
        · intro m hm
          simp only [hitNumsAux, List.mem_append] at hm
          rcases hm with hm | hm
          · by_cases hl : hit l = true
            · simp [hl] at hm
              omega
            · simp only [Bool.not_eq_true] at hl
              simp [hl] at hm
          · exact hk3 m hm
      | none =>
        rw [ht] at hr
        by_cases hl : hit l = true
        · rw [if_pos hl] at hr
          simp only [Option.some.injEq] at hr
          subst hr
          refine ⟨n + 1, by simp, by simp [hitNumsAux, hl], ?_⟩
          intro m hm
          simp only [hitNumsAux, List.mem_append] at hm
          rcases hm with hm | hm
          · simp [hl] at hm
            omega
          · rw [ihn ht] at hm
            simp at hm
        · rw [if_neg (by simp [hl])] at hr
          exact absurd hr (by simp)


/-- Under `use_last` (without `match_once`) the loop never touches the
accumulated match list. -/
theorem loop_hits_ul (p : Params) (hit : String → Bool) (mk : Nat → String → Row)
    (ca : Option Nat) (hmo : p.matchOnce = false) (hul : p.useLast = true) :
    ∀ (ls : List String) (n chk : Nat) (found : Bool) (acc : List Row) (last : Option Row),
      (lineLoop p hit mk ca ls n chk found acc last).hits = acc := by
  intro ls
  induction ls with
  | nil => intro n chk found acc last; simp [lineLoop]
  | cons l rest ih =>
    intro n chk found acc last
    by_cases hs : stopObs ca chk = true
    · simp [lineLoop, hs]
    · simp only [Bool.not_eq_true] at hs
      by_cases hl : hit l = true
      · simp [lineLoop, hs, hl, hmo, hul, ih]
      · simp only [Bool.not_eq_true] at hl
        simp [lineLoop, hs, hl, ih]

/-- Under `match_once` the loop's behaviour does not depend on the
`use_last` flag (the `match_once` branch is checked first). -/
theorem loop_mo_indep (p q : Params) (hit : String → Bool) (mk : Nat → String → Row)
    (ca : Option Nat) (hp : p.matchOnce = true) (hq : q.matchOnce = true) :
    ∀ (ls : List String) (n chk : Nat) (found : Bool) (acc : List Row) (last : Option Row),
      lineLoop p hit mk ca ls n chk found acc last
        = lineLoop q hit mk ca ls n chk found acc last := by
  intro ls
  induction ls with
  | nil => intro n chk found acc last; rfl
  | cons l rest ih =>
    intro n chk found acc last
    by_cases hs : stopObs ca chk = true
    · simp [lineLoop, hs]
    · simp only [Bool.not_eq_true] at hs
      by_cases hl : hit l = true
      · simp [lineLoop, hs, hl, hp, hq]
      · simp only [Bool.not_eq_true] at hl
        simp [lineLoop, hs, hl, ih]

/-- When the remembered last match is absent, the member emission block
does not depend on the `use_last` flag. -/
theorem memberEmit_ul_indep (mo b b2 cs cs2 sa sa2 inc : Bool) (locator fn : String)
    (errM : Option String) (r : LoopResult) (hlm : r.lastMatch = none) :
    memberEmit ⟨mo, b, cs, sa, inc⟩ locator fn errM r
      = memberEmit ⟨mo, b2, cs2, sa2, inc⟩ locator fn errM r := by
  simp [memberEmit, hlm]

/-- When the remembered last match is absent, the plain-file emission
block does not depend on the `use_last` flag. -/
theorem plainEmit_ul_indep (mo b b2 cs cs2 sa sa2 inc : Bool) (path fn : String)
    (errM : Option String) (r : LoopResult) (hlm : r.lastMatch = none) :
    plainEmit ⟨mo, b, cs, sa, inc⟩ path fn errM r
      = plainEmit ⟨mo, b2, cs2, sa2, inc⟩ path fn errM r := by
  simp [plainEmit, hlm]

/-- The member emission block's count is exactly the number of
real-match rows it writes. -/
theorem memberEmit_cnt (p : Params) (locator fn : String) (errM : Option String)
    (r : LoopResult) :
    (memberEmit p locator fn errM r).cnt
      = ((memberEmit p locator fn errM r).rows.filter
          (fun row => row.lineNum.isNum)).length := by
  by_cases hr : (!r.broke && errM.isSome) = true <;>
    by_cases hul : p.useLast = true <;>
      cases hlast : r.lastMatch <;>
        by_cases hinc : p.incNomatch = true <;>
          cases hh : r.hits <;>
            simp [memberEmit, hr, hul, hlast, hinc, hh]

/-- Both emission blocks pass the loop's check counter through. -/
theorem memberEmit_nextChk (p : Params) (locator fn : String) (errM : Option String)
    (r : LoopResult) : (memberEmit p locator fn errM r).nextChk = r.nextCheck := by
  by_cases hr : (!r.broke && errM.isSome) = true <;>
    by_cases hul : p.useLast = true <;>
      cases hlast : r.lastMatch <;>
        by_cases hinc : p.incNomatch = true <;>
          cases hh : r.hits <;>
            simp [memberEmit, hr, hul, hlast, hinc, hh]

theorem plainEmit_nextChk (p : Params) (path fn : String) (errM : Option String)
    (r : LoopResult) : (plainEmit p path fn errM r).nextChk = r.nextCheck := by
  by_cases hr : (!r.broke && errM.isSome) = true <;>
    by_cases hul : p.useLast = true <;>
      cases hlast : r.lastMatch <;>
        by_cases hinc : p.incNomatch = true <;>
          cases hh : r.hits <;>
            by_cases hf : r.found = true <;>
              simp [plainEmit, hr, hul, hlast, hinc, hh, hf]

/-- Rows of the member emission block when the source cannot raise and
neither `use_last` nor `inc_nomatch` is set: exactly the accumulated
match list. -/
theorem memberEmit_rows_basic (p : Params) (locator fn : String) (r : LoopResult)
    (hul : p.useLast = false) (hinc : p.incNomatch = false) :
    (memberEmit p locator fn none r).rows = r.hits := by
  cases hh : r.hits <;>
    simp [memberEmit, hul, hinc, hh]

/-- Rows of the plain-file emission block when neither `use_last` nor
`inc_nomatch` is set: the accumulated matches (with the appended ERROR
row if the read raised), provided a match was found, and nothing
otherwise. -/
theorem plainEmit_rows_basic (p : Params) (path fn : String) (errM : Option String)
    (r : LoopResult) (hul : p.useLast = false) (hinc : p.incNomatch = false) :
    (plainEmit p path fn errM r).rows
      = if r.found = true then
          (if (!r.broke && errM.isSome) = true then
            r.hits ++ [⟨path, fn, LineNum.error, "Could not read file: " ++ errM.getD ""⟩]
          else r.hits)
        else [] := by
  by_cases hr : (!r.broke && errM.isSome) = true <;>
    cases hh : r.hits <;>
      by_cases hf : r.found = true <;>
        simp [plainEmit, hul, hinc, hr, hh, hf]


/-- When the loop left at most one recorded match, the member emission
block writes at most one row. -/
theorem memberEmit_le_one (p : Params) (locator fn : String) (errM : Option String)
    (r : LoopResult) (hh : r.hits.length ≤ 1) :
    (memberEmit p locator fn errM r).rows.length ≤ 1 := by
  rcases hht : r.hits with _ | ⟨a, _ | ⟨b, t⟩⟩
  · by_cases hr : (!r.broke && errM.isSome) = true <;>
      by_cases hul : p.useLast = true <;>
        cases hlast : r.lastMatch <;>
          by_cases hinc : p.incNomatch = true <;>
            simp [memberEmit, hr, hul, hlast, hinc, hht]
  · by_cases hr : (!r.broke && errM.isSome) = true <;>
      by_cases hul : p.useLast = true <;>
        cases hlast : r.lastMatch <;>
          by_cases hinc : p.incNomatch = true <;>
            simp [memberEmit, hr, hul, hlast, hinc, hht]
  · rw [hht] at hh
    simp at hh

/-- When the loop left at most one recorded match and a raised read
exception implies none at all, the plain-file emission block writes at
most one row. -/
theorem plainEmit_le_one (p : Params) (path fn : String) (errM : Option String)
    (r : LoopResult) (hh : r.hits.length ≤ 1)
    (hre : (!r.broke && errM.isSome) = true → r.hits = []) :
    (plainEmit p path fn errM r).rows.length ≤ 1 := by
  by_cases hr : (!r.broke && errM.isSome) = true
  · have := hre hr
    by_cases hul : p.useLast = true <;>
      cases hlast : r.lastMatch <;>
        by_cases hinc : p.incNomatch = true <;>
          by_cases hf : r.found = true <;>
            simp [plainEmit, hr, hul, hlast, hinc, hf, this]
  · rcases hht : r.hits with _ | ⟨a, _ | ⟨b, t⟩⟩
    · by_cases hul : p.useLast = true <;>
        cases hlast : r.lastMatch <;>
          by_cases hinc : p.incNomatch = true <;>
            by_cases hf : r.found = true <;>
              simp [plainEmit, hr, hul, hlast, hinc, hf, hht]
    · by_cases hul : p.useLast = true <;>
        cases hlast : r.lastMatch <;>
          by_cases hinc : p.incNomatch = true <;>
            by_cases hf : r.found = true <;>
              simp [plainEmit, hr, hul, hlast, hinc, hf, hht]
    · rw [hht] at hh
      simp at hh


/-- `runPlain` unfolded. -/
theorem runPlain_eq_emit (p : Params) (kw : String) (e : FileEntry)
    (ca : Option Nat) (chk : Nat) :
    runPlain p kw e ca chk
      = plainEmit p e.path (basename e.path) e.plainSrc.err
          (lineLoop p (lineHit p.caseSens kw)
            (fun n l => ⟨e.path, basename e.path, LineNum.num n, rstripNl l⟩)
            ca e.plainSrc.lines 0 chk false [] none) := rfl

/-- `runMember` unfolded. -/
theorem runMember_eq_emit (p : Params) (kw archPath : String) (m : Member)
    (ca : Option Nat) (chk : Nat) :
    runMember p kw archPath m ca chk
      = memberEmit p (archPath ++ "::" ++ m.inner) (basename m.inner) m.src.err
          (lineLoop p (lineHit p.caseSens kw)
            (fun n l => ⟨archPath ++ "::" ++ m.inner, basename m.inner, LineNum.num n, rstripNl l⟩)
            ca m.src.lines 0 chk false [] none) := rfl

/-- C1: for every source (plain file or archive member) and every line
stream, with `matchOnce` set the engine emits at most one result row
for the source apart from a possible ERROR row, its behaviour is
independent of the `useLastMatch` flag (`matchOnce` wins), and the line
loop records exactly the first matching line and stops consuming the
stream right after it. -/
theorem c1_matchOnce_first_hit (p : Params) (kw archPath : String) (e : FileEntry)
    (m : Member) (ca : Option Nat) (chk : Nat) (hmo : p.matchOnce = true) :
    (((runPlain p kw e ca chk).rows.filter
        (fun row => decide (row.lineNum ≠ LineNum.error))).length ≤ 1
      ∧ ((runMember p kw archPath m ca chk).rows.filter
          (fun row => decide (row.lineNum ≠ LineNum.error))).length ≤ 1)
    ∧ (∀ b : Bool,
        runPlain ⟨true, b, p.caseSens, p.showAll, p.incNomatch⟩ kw e ca chk
            = runPlain p kw e ca chk
        ∧ runMember ⟨true, b, p.caseSens, p.showAll, p.incNomatch⟩ kw archPath m ca chk
            = runMember p kw archPath m ca chk)
    ∧ (∀ (hit : String → Bool) (mk : Nat → String → Row) (ls : List String),
        (lineLoop p hit mk ca ls 0 chk false [] none).hits ≠ [] →
        ∃ i, i < ls.length ∧ hit (ls.getD i "") = true
          ∧ (∀ j, j < i → hit (ls.getD j "") = false)
          ∧ (lineLoop p hit mk ca ls 0 chk false [] none).hits = [mk (i + 1) (ls.getD i "")]
          ∧ (lineLoop p hit mk ca ls 0 chk false [] none).consumed = i + 1) := by
  obtain ⟨mo, ul, cs, sa, inc⟩ := p
  have hmo2 : mo = true := hmo
  subst hmo2
  refine ⟨⟨?_, ?_⟩, ?_, ?_⟩
  · rw [runPlain_eq_emit]
    refine le_trans (List.length_filter_le _ _) ?_
    apply plainEmit_le_one
    · rcases loop_matchOnce_cases ⟨true, ul, cs, sa, inc⟩ (lineHit cs kw)
          (fun n l => ⟨e.path, basename e.path, LineNum.num n, rstripNl l⟩) ca rfl
          e.plainSrc.lines 0 chk false none with h | ⟨i, _, _, _, heq⟩
      · rw [h]; simp
      · rw [heq]; simp
    · intro hr
      rcases loop_matchOnce_cases ⟨true, ul, cs, sa, inc⟩ (lineHit cs kw)
          (fun n l => ⟨e.path, basename e.path, LineNum.num n, rstripNl l⟩) ca rfl
          e.plainSrc.lines 0 chk false none with h | ⟨i, _, _, _, heq⟩
      · rw [h]
      · rw [heq] at hr
        simp at hr
  · rw [runMember_eq_emit]
    refine le_trans (List.length_filter_le _ _) ?_
    apply memberEmit_le_one
    rcases loop_matchOnce_cases ⟨true, ul, cs, sa, inc⟩ (lineHit cs kw)
        (fun n l => ⟨archPath ++ "::" ++ m.inner, basename m.inner, LineNum.num n, rstripNl l⟩)
        ca rfl m.src.lines 0 chk false none with h | ⟨i, _, _, _, heq⟩
    · rw [h]; simp
    · rw [heq]; simp
  · intro b
    constructor
    · rw [runPlain_eq_emit, runPlain_eq_emit]
      show plainEmit ⟨true, b, cs, sa, inc⟩ e.path (basename e.path) e.plainSrc.err
            (lineLoop ⟨true, b, cs, sa, inc⟩ (lineHit cs kw)
              (fun n l => ⟨e.path, basename e.path, LineNum.num n, rstripNl l⟩)
              ca e.plainSrc.lines 0 chk false [] none)
          = plainEmit ⟨true, ul, cs, sa, inc⟩ e.path (basename e.path) e.plainSrc.err
            (lineLoop ⟨true, ul, cs, sa, inc⟩ (lineHit cs kw)
              (fun n l => ⟨e.path, basename e.path, LineNum.num n, rstripNl l⟩)
              ca e.plainSrc.lines 0 chk false [] none)
      rw [loop_mo_indep ⟨true, b, cs, sa, inc⟩ ⟨true, ul, cs, sa, inc⟩ (lineHit cs kw)
          (fun n l => ⟨e.path, basename e.path, LineNum.num n, rstripNl l⟩) ca rfl rfl
          e.plainSrc.lines 0 chk false [] none]
      apply plainEmit_ul_indep
      rcases loop_matchOnce_cases ⟨true, ul, cs, sa, inc⟩ (lineHit cs kw)
          (fun n l => ⟨e.path, basename e.path, LineNum.num n, rstripNl l⟩) ca rfl
          e.plainSrc.lines 0 chk false none with h | ⟨i, _, _, _, heq⟩
      · rw [h]
      · rw [heq]
    · rw [runMember_eq_emit, runMember_eq_emit]
      show memberEmit ⟨true, b, cs, sa, inc⟩ (archPath ++ "::" ++ m.inner) (basename m.inner)
            m.src.err
            (lineLoop ⟨true, b, cs, sa, inc⟩ (lineHit cs kw)
              (fun n l => ⟨archPath ++ "::" ++ m.inner, basename m.inner, LineNum.num n,
                rstripNl l⟩) ca m.src.lines 0 chk false [] none)
          = memberEmit ⟨true, ul, cs, sa, inc⟩ (archPath ++ "::" ++ m.inner) (basename m.inner)
            m.src.err
            (lineLoop ⟨true, ul, cs, sa, inc⟩ (lineHit cs kw)
              (fun n l => ⟨archPath ++ "::" ++ m.inner, basename m.inner, LineNum.num n,
                rstripNl l⟩) ca m.src.lines 0 chk false [] none)
      rw [loop_mo_indep ⟨true, b, cs, sa, inc⟩ ⟨true, ul, cs, sa, inc⟩ (lineHit cs kw)
          (fun n l => ⟨archPath ++ "::" ++ m.inner, basename m.inner, LineNum.num n,
            rstripNl l⟩) ca rfl rfl m.src.lines 0 chk false [] none]
      apply memberEmit_ul_indep
      rcases loop_matchOnce_cases ⟨true, ul, cs, sa, inc⟩ (lineHit cs kw)
          (fun n l => ⟨archPath ++ "::" ++ m.inner, basename m.inner, LineNum.num n,
            rstripNl l⟩) ca rfl m.src.lines 0 chk false none with h | ⟨i, _, _, _, heq⟩
      · rw [h]
      · rw [heq]
  · intro hit mk ls hne
    rcases loop_matchOnce_cases ⟨true, ul, cs, sa, inc⟩ hit mk ca rfl ls 0 chk false none
        with h | ⟨i, h1, h2, h3, heq⟩
    · rw [h] at hne
      simp at hne
    · refine ⟨i, h1, h2, h3, ?_, ?_⟩
      · rw [heq]
        norm_num
      · rw [heq]


/-- A non-empty hit-number list means some line hits. -/
theorem hitNumsAux_ne_any (hit : String → Bool) :
    ∀ (ls : List String) (n : Nat), hitNumsAux hit ls n ≠ [] → ls.any hit = true := by
  intro ls
  induction ls with
  | nil => intro n h; simp [hitNumsAux] at h
  | cons l rest ih =>
    intro n h
    by_cases hl : hit l = true
    · simp [hl]
    · simp only [Bool.not_eq_true] at hl
      simp only [hitNumsAux, hl, Bool.false_eq_true, if_false, List.nil_append] at h
      simp [ih (n + 1) h]

/-- C2: with `useLastMatch` set (and `matchOnce` clear) the engine
emits at most one row per source on any run, and on an uncancelled run
over a source whose stream does not raise, if any line matches then the
single emitted row carries the greatest matching line number. -/
theorem c2_useLast_greatest (p : Params) (kw archPath : String) (e : FileEntry)
    (m : Member) (ca : Option Nat) (chk : Nat)
    (hul : p.useLast = true) (hmo : p.matchOnce = false) :
    ((runPlain p kw e ca chk).rows.length ≤ 1
      ∧ (runMember p kw archPath m ca chk).rows.length ≤ 1)
    ∧ (m.src.err = none →
        hitNums (lineHit p.caseSens kw) m.src.lines ≠ [] →
        ∃ k, (runMember p kw archPath m none chk).rows.map (fun row => row.lineNum)
              = [LineNum.num k]
          ∧ k ∈ hitNums (lineHit p.caseSens kw) m.src.lines
          ∧ ∀ j ∈ hitNums (lineHit p.caseSens kw) m.src.lines, j ≤ k)
    ∧ (e.plainSrc.err = none →
        hitNums (lineHit p.caseSens kw) e.plainSrc.lines ≠ [] →
        ∃ k, (runPlain p kw e none chk).rows.map (fun row => row.lineNum)
              = [LineNum.num k]
          ∧ k ∈ hitNums (lineHit p.caseSens kw) e.plainSrc.lines
          ∧ ∀ j ∈ hitNums (lineHit p.caseSens kw) e.plainSrc.lines, j ≤ k) := by
  refine ⟨⟨?_, ?_⟩, ?_, ?_⟩
  · rw [runPlain_eq_emit]
    apply plainEmit_le_one
    · rw [loop_hits_ul p _ _ ca hmo hul]
      simp
    · intro _
      exact loop_hits_ul p _ _ ca hmo hul _ _ _ _ _ _
  · rw [runMember_eq_emit]
    apply memberEmit_le_one
    rw [loop_hits_ul p _ _ ca hmo hul]
    simp
  · intro herr hne
    rw [runMember_eq_emit, herr]
    rw [loop_useLast_none p (lineHit p.caseSens kw)
        (fun n l => ⟨archPath ++ "::" ++ m.inner, basename m.inner, LineNum.num n, rstripNl l⟩)
        hmo hul m.src.lines 0 chk false [] none]
    cases hlr : lastHitRow (lineHit p.caseSens kw)
        (fun n l => ⟨archPath ++ "::" ++ m.inner, basename m.inner, LineNum.num n, rstripNl l⟩)
        m.src.lines 0 with
    | none =>
      exact absurd ((lastHitRow_spec _ _ m.src.lines 0).1 hlr) (by simpa [hitNums] using hne)
    | some rr =>
      obtain ⟨k, hk1, hk2, hk3⟩ := (lastHitRow_spec _ _ m.src.lines 0).2 rr hlr
      refine ⟨k, ?_, by simpa [hitNums] using hk2, by simpa [hitNums] using hk3⟩
      simp [memberEmit, hul, olast, hk1]
  · intro herr hne
    rw [runPlain_eq_emit, herr]
    rw [loop_useLast_none p (lineHit p.caseSens kw)
        (fun n l => ⟨e.path, basename e.path, LineNum.num n, rstripNl l⟩)
        hmo hul e.plainSrc.lines 0 chk false [] none]
    cases hlr : lastHitRow (lineHit p.caseSens kw)
        (fun n l => ⟨e.path, basename e.path, LineNum.num n, rstripNl l⟩)
        e.plainSrc.lines 0 with
    | none =>
      exact absurd ((lastHitRow_spec _ _ e.plainSrc.lines 0).1 hlr) (by simpa [hitNums] using hne)
    | some rr =>
      obtain ⟨k, hk1, hk2, hk3⟩ := (lastHitRow_spec _ _ e.plainSrc.lines 0).2 rr hlr
      have hany : e.plainSrc.lines.any (lineHit p.caseSens kw) = true :=
        hitNumsAux_ne_any _ _ 0 (by simpa [hitNums] using hne)
      refine ⟨k, ?_, by simpa [hitNums] using hk2, by simpa [hitNums] using hk3⟩
      simp [plainEmit, hul, olast, hk1, hany]


/-- The match list the emission blocks select when no exception was
raised: the remembered last match under `use_last`, else the
accumulated list. -/
def selMs (p : Params) (r : LoopResult) : List Row :=
  if p.useLast then
    match r.lastMatch with
    | some lm => [lm]
    | none => r.hits
  else r.hits

/-- All selected rows are real-match rows when the loop state is. -/
theorem selMs_real (p : Params) (r : LoopResult)
    (hreal : ∀ row ∈ r.hits, row.lineNum.isNum = true)
    (hlreal : ∀ row, r.lastMatch = some row → row.lineNum.isNum = true) :
    ∀ row ∈ selMs p r, row.lineNum.isNum = true := by
  intro row hrow
  by_cases hul : p.useLast = true
  · cases hlast : r.lastMatch with
    | none =>
      simp only [selMs, hul, if_true, hlast] at hrow
      exact hreal row hrow
    | some lm =>
      simp only [selMs, hul, if_true, hlast, List.mem_singleton] at hrow
      subst hrow
      exact hlreal row hlast
  · simp only [Bool.not_eq_true] at hul
    simp only [selMs, hul, Bool.false_eq_true, if_false] at hrow
    exact hreal row hrow

/-- Rows of the member emission block on an exception-free source, in
terms of the selected match list. -/
theorem memberEmit_none_rows (p : Params) (loc fn : String) (r : LoopResult) :
    (memberEmit p loc fn none r).rows
      = if (selMs p r).isEmpty then
          (if p.incNomatch then [⟨loc, fn, LineNum.sentinel, "[No match found]"⟩] else [])
        else selMs p r := by
  by_cases hul : p.useLast = true <;>
    cases hlast : r.lastMatch <;>
      by_cases hinc : p.incNomatch = true <;>
        cases hh : r.hits <;>
          simp [memberEmit, selMs, hul, hlast, hinc, hh]

/-- Rows of the plain-file emission block on an exception-free source,
in terms of the selected match list and the `found_in_file` flag. -/
theorem plainEmit_none_rows (p : Params) (path fn : String) (r : LoopResult) :
    (plainEmit p path fn none r).rows
      = if (r.found || (p.incNomatch && (selMs p r).isEmpty)) = true then
          (if ((selMs p r).isEmpty && p.incNomatch) = true then
            selMs p r ++ [⟨path, fn, LineNum.sentinel, "[No match found]"⟩]
          else selMs p r)
        else [] := by
  by_cases hul : p.useLast = true <;>
    cases hlast : r.lastMatch <;>
      by_cases hinc : p.incNomatch = true <;>
        cases hh : r.hits <;>
          by_cases hf : r.found = true <;>
            simp [plainEmit, selMs, hul, hlast, hinc, hh, hf]

/-- Count of the plain-file emission block on an exception-free source
whose loop state is consistent (`found` set exactly when something was
selected, selected rows real): the count is the number of real rows
written. -/
theorem plainEmit_none_cnt (p : Params) (path fn : String) (r : LoopResult)
    (hsel : ∀ row ∈ selMs p r, row.lineNum.isNum = true)
    (hfs : r.found = true → selMs p r ≠ [])
    (hnf : r.found = false → selMs p r = []) :
    (plainEmit p path fn none r).cnt
      = ((plainEmit p path fn none r).rows.filter (fun row => row.lineNum.isNum)).length := by
  have hcnt : (plainEmit p path fn none r).cnt
      = if r.found = true then (plainEmit p path fn none r).rows.length else 0 := by
    by_cases hul : p.useLast = true <;>
      cases hlast : r.lastMatch <;>
        by_cases hinc : p.incNomatch = true <;>
          cases hh : r.hits <;>
            by_cases hf : r.found = true <;>
              simp [plainEmit, selMs, hul, hlast, hinc, hh, hf]
  rw [hcnt, plainEmit_none_rows]
  by_cases hf : r.found = true
  · have hne := hfs hf
    have hemp : (selMs p r).isEmpty = false := by
      cases hx : selMs p r with
      | nil => exact absurd hx hne
      | cons a t => simp
    simp only [hf, if_true, Bool.true_or, hemp, Bool.false_and, Bool.and_false,
      Bool.false_eq_true, if_false]
    rw [List.filter_eq_self.mpr]
    intro a ha
    exact hsel a ha
  · simp only [Bool.not_eq_true] at hf
    have hemp : selMs p r = [] := hnf hf
    simp [hf, hemp]
    by_cases hinc : p.incNomatch = true <;> simp [hinc, LineNum.isNum]


/-- Consistency facts of a per-source loop run started from the
initial state: selected rows are real, and something is selected
exactly when the loop set `found`. -/
theorem loop_state_facts (p : Params) (hit : String → Bool) (mk : Nat → String → Row)
    (ca : Option Nat) (hmk : ∀ n l, (mk n l).lineNum.isNum = true)
    (ls : List String) (chk : Nat) :
    (∀ row ∈ selMs p (lineLoop p hit mk ca ls 0 chk false [] none),
        row.lineNum.isNum = true)
    ∧ ((lineLoop p hit mk ca ls 0 chk false [] none).found = true →
        selMs p (lineLoop p hit mk ca ls 0 chk false [] none) ≠ [])
    ∧ ((lineLoop p hit mk ca ls 0 chk false [] none).found = false →
        selMs p (lineLoop p hit mk ca ls 0 chk false [] none) = []) := by
  have hrr := loop_rows_real p hit mk ca hmk ls 0 chk false [] none
    (by simp) (by simp)
  refine ⟨selMs_real p _ hrr.1 hrr.2, ?_, ?_⟩
  · intro hf
    by_cases hmo : p.matchOnce = true
    · rcases loop_matchOnce_cases p hit mk ca hmo ls 0 chk false none
          with h | ⟨i, _, _, _, heq⟩
      · rw [h] at hf
        simp at hf
      · rw [heq]
        cases hul : p.useLast <;> simp [selMs, hul]
    · simp only [Bool.not_eq_true] at hmo
      by_cases hul : p.useLast = true
      · have hls := loop_found_last p hit mk ca hmo hul ls 0 chk false [] none (by simp) hf
        cases hlast : (lineLoop p hit mk ca ls 0 chk false [] none).lastMatch with
        | none => rw [hlast] at hls; simp at hls
        | some lm => simp [selMs, hul, hlast]
      · simp only [Bool.not_eq_true] at hul
        have hne := loop_found_hits p hit mk ca hmo hul ls 0 chk false [] none (by simp) hf
        simp [selMs, hul, hne]
  · intro hf
    have h := loop_found_false p hit mk ca ls 0 chk false [] none hf
    cases hul : p.useLast <;> simp [selMs, hul, h.1, h.2]

/-- On an exception-free plain file the count contributed equals the
number of real-match rows written, on any run. -/
theorem runPlain_cnt_real (p : Params) (kw : String) (e : FileEntry)
    (ca : Option Nat) (chk : Nat) (herr : e.plainSrc.err = none) :
    (runPlain p kw e ca chk).cnt
      = ((runPlain p kw e ca chk).rows.filter (fun row => row.lineNum.isNum)).length := by
  rw [runPlain_eq_emit, herr]
  obtain ⟨h1, h2, h3⟩ := loop_state_facts p (lineHit p.caseSens kw)
    (fun n l => ⟨e.path, basename e.path, LineNum.num n, rstripNl l⟩) ca
    (fun n l => rfl) e.plainSrc.lines chk
  exact plainEmit_none_cnt p e.path (basename e.path) _ h1 h2 h3

/-- The member count contributed always equals the number of
real-match rows written. -/
theorem runMember_cnt_real (p : Params) (kw archPath : String) (m : Member)
    (ca : Option Nat) (chk : Nat) :
    (runMember p kw archPath m ca chk).cnt
      = ((runMember p kw archPath m ca chk).rows.filter
          (fun row => row.lineNum.isNum)).length := by
  rw [runMember_eq_emit]
  exact memberEmit_cnt _ _ _ _ _


/-- C3 evaluation: at a plain file whose read raises before any match,
the engine emits no row at all (the constructed ERROR row is discarded
by the emission gate), while the archive-member path at the same stream
emits exactly one ERROR row; and a plain file that raises after a match
keeps the match rows and appends the ERROR row after them. -/
theorem c3_plain_error_swallowed :
    (runPlain ⟨false, false, false, false, true⟩ "foo"
        ⟨"b.txt", "b.txt", ⟨[], some "boom"⟩, ⟨[], none⟩⟩ none 0).rows = []
    ∧ (runMember ⟨false, false, false, false, true⟩ "foo" "a.zip"
        ⟨"m.txt", false, ⟨[], some "boom"⟩⟩ none 0).rows
      = [⟨"a.zip::m.txt", "m.txt", LineNum.error, "Could not read member: boom"⟩]
    ∧ (runPlain ⟨false, false, false, false, true⟩ "foo"
        ⟨"d.txt", "d.txt", ⟨["foo"], some "boom"⟩, ⟨[], none⟩⟩ none 0).rows
      = [⟨"d.txt", "d.txt", LineNum.num 1, "foo"⟩,
         ⟨"d.txt", "d.txt", LineNum.error, "Could not read file: boom"⟩] :=
  ⟨by decide, by decide, by decide⟩

/-- C4 counterexample: an archive member whose read raises, scanned
with `includeNonMatching` set, produces zero real matches and yet no
sentinel row (it gets an ERROR row instead), refuting the claimed
equivalence as stated. -/
theorem c4_counterexample :
    (⟨false, false, false, false, true⟩ : Params).incNomatch = true
    ∧ ((runMember ⟨false, false, false, false, true⟩ "foo" "a.zip"
        ⟨"m.txt", false, ⟨[], some "boom"⟩⟩ none 0).rows.filter
        (fun row => row.lineNum.isNum)) = []
    ∧ ((runMember ⟨false, false, false, false, true⟩ "foo" "a.zip"
        ⟨"m.txt", false, ⟨[], some "boom"⟩⟩ none 0).rows.filter
        (fun row => decide (row.lineNum = LineNum.sentinel))) = [] :=
  ⟨by decide, by decide, by decide⟩

/-- C4 amended: for exception-free sources, a sentinel row is emitted
iff `includeNonMatching` is set and the source produced zero real
matches, and then it is the only row; with the flag clear a source with
zero real matches contributes no rows. -/
theorem c4_amended_sentinel (p : Params) (kw archPath : String) (e : FileEntry)
    (m : Member) (ca : Option Nat) (chk : Nat)
    (herrM : m.src.err = none) (herrP : e.plainSrc.err = none) :
    (p.incNomatch = true →
      ((runMember p kw archPath m ca chk).rows.filter (fun row => row.lineNum.isNum)) = [] →
      (runMember p kw archPath m ca chk).rows
        = [⟨archPath ++ "::" ++ m.inner, basename m.inner, LineNum.sentinel, "[No match found]"⟩])
    ∧ (p.incNomatch = false →
        ((runMember p kw archPath m ca chk).rows.filter (fun row => row.lineNum.isNum)) = [] →
        (runMember p kw archPath m ca chk).rows = [])
    ∧ (∀ row ∈ (runMember p kw archPath m ca chk).rows,
        row.lineNum = LineNum.sentinel →
        p.incNomatch = true
          ∧ (runMember p kw archPath m ca chk).rows = [row]
          ∧ ((runMember p kw archPath m ca chk).rows.filter
              (fun row => row.lineNum.isNum)) = [])
    ∧ (p.incNomatch = true →
        ((runPlain p kw e ca chk).rows.filter (fun row => row.lineNum.isNum)) = [] →
        (runPlain p kw e ca chk).rows
          = [⟨e.path, basename e.path, LineNum.sentinel, "[No match found]"⟩])
    ∧ (p.incNomatch = false →
        ((runPlain p kw e ca chk).rows.filter (fun row => row.lineNum.isNum)) = [] →
        (runPlain p kw e ca chk).rows = [])
    ∧ (∀ row ∈ (runPlain p kw e ca chk).rows,
        row.lineNum = LineNum.sentinel →
        p.incNomatch = true
          ∧ (runPlain p kw e ca chk).rows = [row]
          ∧ ((runPlain p kw e ca chk).rows.filter
              (fun row => row.lineNum.isNum)) = []) := by
  obtain ⟨hm1, hm2, hm3⟩ := loop_state_facts p (lineHit p.caseSens kw)
    (fun n l => ⟨archPath ++ "::" ++ m.inner, basename m.inner, LineNum.num n, rstripNl l⟩)
    ca (fun n l => rfl) m.src.lines chk
  obtain ⟨hp1, hp2, hp3⟩ := loop_state_facts p (lineHit p.caseSens kw)
    (fun n l => ⟨e.path, basename e.path, LineNum.num n, rstripNl l⟩)
    ca (fun n l => rfl) e.plainSrc.lines chk
  have hmrows : (runMember p kw archPath m ca chk).rows
      = if (selMs p (lineLoop p (lineHit p.caseSens kw)
            (fun n l => ⟨archPath ++ "::" ++ m.inner, basename m.inner, LineNum.num n,
              rstripNl l⟩) ca m.src.lines 0 chk false [] none)).isEmpty then
          (if p.incNomatch then
            [⟨archPath ++ "::" ++ m.inner, basename m.inner, LineNum.sentinel,
              "[No match found]"⟩]
          else [])
        else selMs p (lineLoop p (lineHit p.caseSens kw)
            (fun n l => ⟨archPath ++ "::" ++ m.inner, basename m.inner, LineNum.num n,
              rstripNl l⟩) ca m.src.lines 0 chk false [] none) := by
    rw [runMember_eq_emit, herrM, memberEmit_none_rows]
  have hprows : (runPlain p kw e ca chk).rows
      = if ((lineLoop p (lineHit p.caseSens kw)
            (fun n l => ⟨e.path, basename e.path, LineNum.num n, rstripNl l⟩)
            ca e.plainSrc.lines 0 chk false [] none).found
          || (p.incNomatch && (selMs p (lineLoop p (lineHit p.caseSens kw)
            (fun n l => ⟨e.path, basename e.path, LineNum.num n, rstripNl l⟩)
            ca e.plainSrc.lines 0 chk false [] none)).isEmpty)) = true then
          (if ((selMs p (lineLoop p (lineHit p.caseSens kw)
            (fun n l => ⟨e.path, basename e.path, LineNum.num n, rstripNl l⟩)
            ca e.plainSrc.lines 0 chk false [] none)).isEmpty && p.incNomatch) = true then
            selMs p (lineLoop p (lineHit p.caseSens kw)
              (fun n l => ⟨e.path, basename e.path, LineNum.num n, rstripNl l⟩)
              ca e.plainSrc.lines 0 chk false [] none)
              ++ [⟨e.path, basename e.path, LineNum.sentinel, "[No match found]"⟩]
          else selMs p (lineLoop p (lineHit p.caseSens kw)
              (fun n l => ⟨e.path, basename e.path, LineNum.num n, rstripNl l⟩)
              ca e.plainSrc.lines 0 chk false [] none))
        else [] := by
    rw [runPlain_eq_emit, herrP, plainEmit_none_rows]
  refine ⟨?_, ?_, ?_, ?_, ?_, ?_⟩
  · intro hinc hfil
    rw [hmrows] at hfil ⊢
    by_cases hemp : (selMs p (lineLoop p (lineHit p.caseSens kw)
        (fun n l => ⟨archPath ++ "::" ++ m.inner, basename m.inner, LineNum.num n,
          rstripNl l⟩) ca m.src.lines 0 chk false [] none)).isEmpty = true
    · simp [hemp, hinc]
    · simp only [hemp, Bool.false_eq_true, if_false] at hfil ⊢
      rw [List.filter_eq_self.mpr hm1] at hfil
      simp [hfil] at hemp
  · intro hinc hfil
    rw [hmrows] at hfil ⊢
    by_cases hemp : (selMs p (lineLoop p (lineHit p.caseSens kw)
        (fun n l => ⟨archPath ++ "::" ++ m.inner, basename m.inner, LineNum.num n,
          rstripNl l⟩) ca m.src.lines 0 chk false [] none)).isEmpty = true
    · simp [hemp, hinc]
    · simp only [hemp, Bool.false_eq_true, if_false] at hfil ⊢
      rw [List.filter_eq_self.mpr hm1] at hfil
      simp [hfil] at hemp
  · intro row hrow hsent
    rw [hmrows] at hrow ⊢
    by_cases hemp : (selMs p (lineLoop p (lineHit p.caseSens kw)
        (fun n l => ⟨archPath ++ "::" ++ m.inner, basename m.inner, LineNum.num n,
          rstripNl l⟩) ca m.src.lines 0 chk false [] none)).isEmpty = true
    · by_cases hinc : p.incNomatch = true
      · simp only [hemp, if_true, hinc] at hrow ⊢
        simp only [List.mem_singleton] at hrow
        subst hrow
        simp [LineNum.isNum]
      · simp only [Bool.not_eq_true] at hinc
        simp [hemp, hinc] at hrow
    · simp only [hemp, Bool.false_eq_true, if_false] at hrow
      have := hm1 row hrow
      rw [hsent] at this
      simp [LineNum.isNum] at this
  · intro hinc hfil
    rw [hprows] at hfil ⊢
    by_cases hf : (lineLoop p (lineHit p.caseSens kw)
        (fun n l => ⟨e.path, basename e.path, LineNum.num n, rstripNl l⟩)
        ca e.plainSrc.lines 0 chk false [] none).found = true
    · have hne := hp2 hf
      have hemp : (selMs p (lineLoop p (lineHit p.caseSens kw)
          (fun n l => ⟨e.path, basename e.path, LineNum.num n, rstripNl l⟩)
          ca e.plainSrc.lines 0 chk false [] none)).isEmpty = false := by
        cases hx : selMs p (lineLoop p (lineHit p.caseSens kw)
            (fun n l => ⟨e.path, basename e.path, LineNum.num n, rstripNl l⟩)
            ca e.plainSrc.lines 0 chk false [] none) with
        | nil => exact absurd hx hne
        | cons a t => simp
      simp only [hf, Bool.true_or, if_true, hemp, Bool.false_and, Bool.false_eq_true,
        if_false] at hfil ⊢
      rw [List.filter_eq_self.mpr hp1] at hfil
      simp [hfil] at hemp
    · simp only [Bool.not_eq_true] at hf
      have hemp := hp3 hf
      simp [hf, hemp, hinc]
  · intro hinc hfil
    rw [hprows] at hfil ⊢
    by_cases hf : (lineLoop p (lineHit p.caseSens kw)
        (fun n l => ⟨e.path, basename e.path, LineNum.num n, rstripNl l⟩)
        ca e.plainSrc.lines 0 chk false [] none).found = true
    · have hne := hp2 hf
      have hemp : (selMs p (lineLoop p (lineHit p.caseSens kw)
          (fun n l => ⟨e.path, basename e.path, LineNum.num n, rstripNl l⟩)
          ca e.plainSrc.lines 0 chk false [] none)).isEmpty = false := by
        cases hx : selMs p (lineLoop p (lineHit p.caseSens kw)
            (fun n l => ⟨e.path, basename e.path, LineNum.num n, rstripNl l⟩)
            ca e.plainSrc.lines 0 chk false [] none) with
        | nil => exact absurd hx hne
        | cons a t => simp
      simp only [hf, Bool.true_or, if_true, hemp, Bool.false_and, Bool.false_eq_true,
        if_false] at hfil ⊢
      rw [List.filter_eq_self.mpr hp1] at hfil
      simp [hfil] at hemp
    · simp only [Bool.not_eq_true] at hf
      have hemp := hp3 hf
      simp [hf, hemp, hinc]
  · intro row hrow hsent
    rw [hprows] at hrow ⊢
    by_cases hf : (lineLoop p (lineHit p.caseSens kw)
        (fun n l => ⟨e.path, basename e.path, LineNum.num n, rstripNl l⟩)
        ca e.plainSrc.lines 0 chk false [] none).found = true
    · have hne := hp2 hf
      have hemp : (selMs p (lineLoop p (lineHit p.caseSens kw)
          (fun n l => ⟨e.path, basename e.path, LineNum.num n, rstripNl l⟩)
          ca e.plainSrc.lines 0 chk false [] none)).isEmpty = false := by
        cases hx : selMs p (lineLoop p (lineHit p.caseSens kw)
            (fun n l => ⟨e.path, basename e.path, LineNum.num n, rstripNl l⟩)
            ca e.plainSrc.lines 0 chk false [] none) with
        | nil => exact absurd hx hne
        | cons a t => simp
      simp only [hf, Bool.true_or, if_true, hemp, Bool.false_and, Bool.false_eq_true,
        if_false] at hrow
      have := hp1 row hrow
      rw [hsent] at this
      simp [LineNum.isNum] at this
    · simp only [Bool.not_eq_true] at hf
      have hemp := hp3 hf
      by_cases hinc : p.incNomatch = true
      · simp only [hf, hemp, hinc, Bool.false_or, Bool.and_true, List.isEmpty_nil,
          Bool.true_and, if_true, List.nil_append] at hrow ⊢
        simp only [List.mem_singleton] at hrow
        subst hrow
        simp [LineNum.isNum]
      · simp only [Bool.not_eq_true] at hinc
        simp [hf, hemp, hinc] at hrow


/-- C5 counterexample: a plain file whose single line matches and whose
read then raises gets its ERROR row counted into `match_count` (count
2, real rows 1), refuting the claim as stated. -/
theorem c5_counterexample :
    (runPlain ⟨false, false, false, false, true⟩ "foo"
        ⟨"d.txt", "d.txt", ⟨["foo"], some "boom"⟩, ⟨[], none⟩⟩ none 0).cnt = 2
    ∧ ((runPlain ⟨false, false, false, false, true⟩ "foo"
        ⟨"d.txt", "d.txt", ⟨["foo"], some "boom"⟩, ⟨[], none⟩⟩ none 0).rows.filter
        (fun row => row.lineNum.isNum)).length = 1 :=
  ⟨by decide, by decide⟩

/-- The member loop of `_process_archive` preserves the invariant that
the running count equals the number of real rows written. -/
theorem runMembers_cnt (p : Params) (kw : String) (exts : List String) (archPath : String)
    (ca : Option Nat) :
    ∀ (ms : List Member) (chk : Nat) (rows pv : List Row) (cnt : Nat),
      cnt = (rows.filter (fun row => row.lineNum.isNum)).length →
      (runMembers p kw exts archPath ca ms chk rows pv cnt).cnt
        = ((runMembers p kw exts archPath ca ms chk rows pv cnt).rows.filter
            (fun row => row.lineNum.isNum)).length := by
  intro ms
  induction ms with
  | nil => intro chk rows pv cnt h; simpa [runMembers] using h
  | cons m rest ih =>
    intro chk rows pv cnt h
    by_cases hskip : (m.isDir || !(endsWithAny (lowerStr m.inner) exts)) = true
    · simp only [runMembers, hskip, if_true]
      exact ih chk rows pv cnt h
    · simp only [runMembers, hskip, Bool.false_eq_true, if_false]
      apply ih
      rw [List.filter_append, List.length_append, ← h, runMember_cnt_real]

/-- The archive count contributed always equals the number of
real-match rows written. -/
theorem runArchive_cnt_real (p : Params) (kw : String) (exts : List String)
    (e : FileEntry) (ca : Option Nat) (chk : Nat) :
    (runArchive p kw exts e ca chk).cnt
      = ((runArchive p kw exts e ca chk).rows.filter
          (fun row => row.lineNum.isNum)).length := by
  cases hop : e.archData.openErr with
  | some msg => simp [runArchive, hop, LineNum.isNum]
  | none =>
    simp only [runArchive, hop]
    exact runMembers_cnt p kw exts e.path ca e.archData.members chk [] [] 0 (by simp)

/-- One scan-loop iteration preserves the count invariant, provided the
entry's plain stream cannot raise. -/
theorem processEntry_cnt (p : Params) (kw : String) (toggle : Bool) (exts : List String)
    (ca : Option Nat) (st : ScanSt) (e : FileEntry)
    (herr : e.plainSrc.err = none)
    (hst : st.cnt = (st.durable.filter (fun row => row.lineNum.isNum)).length) :
    (processEntry p kw toggle exts ca st e).cnt
      = ((processEntry p kw toggle exts ca st e).durable.filter
          (fun row => row.lineNum.isNum)).length := by
  by_cases hd : (endsWithAny (lowerStr e.path) ARCHIVE_EXTS && toggle) = true
  · simp only [processEntry, hd, if_true]
    rw [List.filter_append, List.length_append, ← hst, ← runArchive_cnt_real]
  · simp only [processEntry, hd, Bool.false_eq_true, if_false]
    rw [List.filter_append, List.length_append, ← hst, ← runPlain_cnt_real p kw e ca st.chk herr]

/-- The scan loop preserves the count invariant when no listed entry's
plain stream can raise. -/
theorem scanGo_cnt (p : Params) (kw : String) (toggle : Bool) (exts : List String)
    (ca : Option Nat) :
    ∀ (fl : List FileEntry) (st : ScanSt),
      (∀ en ∈ fl, en.plainSrc.err = none) →
      st.cnt = (st.durable.filter (fun row => row.lineNum.isNum)).length →
      (scanGo p kw toggle exts ca fl st).cnt
        = ((scanGo p kw toggle exts ca fl st).durable.filter
            (fun row => row.lineNum.isNum)).length := by
  intro fl
  induction fl with
  | nil => intro st _ h; simpa [scanGo] using h
  | cons e rest ih =>
    intro st herr h
    by_cases hs : stopObs ca st.chk = true
    · simpa [scanGo, hs] using h
    · simp only [Bool.not_eq_true] at hs
      simp only [scanGo, hs, Bool.false_eq_true, if_false]
      apply ih _ (fun en hen => herr en (List.mem_cons_of_mem _ hen))
      exact processEntry_cnt p kw toggle exts ca ⟨st.durable, st.preview, st.cnt, st.chk + 1⟩ e
        (herr e (List.mem_cons_self e rest)) h

/-- `buildLists` classifies by two order-preserving filters of the
walked list. -/
theorem buildLists_eq_filter (toggle : Bool) (exts : List String) :
    ∀ walked : List FileEntry,
      buildLists toggle exts walked
        = ⟨walked.filter (fun e => !(endsWithAny (lowerStr e.name) ARCHIVE_EXTS && toggle)
              && endsWithAny (lowerStr e.name) exts),
           walked.filter (fun e => endsWithAny (lowerStr e.name) ARCHIVE_EXTS && toggle)⟩ := by
  intro walked
  induction walked with
  | nil => simp [buildLists]
  | cons e rest ih =>
    by_cases harc : endsWithAny (lowerStr e.name) ARCHIVE_EXTS = true <;>
      by_cases htog : toggle = true <;>
        by_cases hx : endsWithAny (lowerStr e.name) exts = true <;>
          simp_all [buildLists, List.filter_cons]

/-- Every classified entry comes from the walked list. -/
theorem fileList_subset (toggle : Bool) (exts : List String) (walked : List FileEntry) :
    ∀ en ∈ fileList toggle exts walked, en ∈ walked := by
  intro en hen
  simp only [fileList, buildLists_eq_filter, List.mem_append] at hen
  rcases hen with h | h
  · exact (List.mem_filter.mp h).1
  · exact (List.mem_filter.mp h).1

/-- C5 amended: at every cancellation point and at the end, the
reported match count equals the number of real-match rows in the
durable store, provided no plain-file source raises a read exception
(archive members may still raise; their ERROR rows are never
counted). -/
theorem c5_amended_count (p : Params) (kw : String) (toggle : Bool) (exts : List String)
    (walked : List FileEntry) (ca : Option Nat)
    (herr : ∀ en ∈ walked, en.plainSrc.err = none) :
    (searchFiles p kw toggle exts walked ca).cnt
      = ((searchFiles p kw toggle exts walked ca).durable.filter
          (fun row => row.lineNum.isNum)).length := by
  simp only [searchFiles]
  exact scanGo_cnt p _ toggle exts ca (fileList toggle exts walked) ⟨[], [], 0, 0⟩
    (fun en hen => herr en (fileList_subset toggle exts walked en hen)) (by simp)


/-! ### Preview buffer lemmas -/

/-- With `show_all` set the preview append is a plain append. -/
theorem previewAddAll_true (pv : List Row) :
    ∀ rs : List Row, previewAddAll true pv rs = pv ++ rs := by
  intro rs
  induction rs generalizing pv with
  | nil => simp [previewAddAll]
  | cons r rest ih =>
    simp only [previewAddAll, List.foldl_cons] at ih ⊢
    rw [show previewAdd true pv r = pv ++ [r] by simp [previewAdd], ih]
    simp

/-- Without `show_all` one preview append keeps the buffer within the
1000-row cap. -/
theorem previewAdd_le (pv : List Row) (r : Row) (h : pv.length ≤ 1000) :
    (previewAdd false pv r).length ≤ 1000 := by
  by_cases hlt : pv.length < 1000
  · simp [previewAdd, hlt]
    omega
  · simp [previewAdd, hlt]
    omega

/-- Without `show_all` batch preview appends keep the buffer within the
cap. -/
theorem previewAddAll_le (rs : List Row) :
    ∀ pv : List Row, pv.length ≤ 1000 → (previewAddAll false pv rs).length ≤ 1000 := by
  induction rs with
  | nil => intro pv h; simpa [previewAddAll] using h
  | cons r rest ih =>
    intro pv h
    simp only [previewAddAll, List.foldl_cons]
    exact ih _ (previewAdd_le pv r h)

/-- With `show_all` set the member loop keeps its local preview equal
to the rows it writes. -/
theorem runMembers_pv_true (p : Params) (kw : String) (exts : List String)
    (archPath : String) (ca : Option Nat) (hsa : p.showAll = true) :
    ∀ (ms : List Member) (chk : Nat) (rows pv : List Row) (cnt : Nat),
      pv = rows →
      (runMembers p kw exts archPath ca ms chk rows pv cnt).pv
        = (runMembers p kw exts archPath ca ms chk rows pv cnt).rows := by
  intro ms
  induction ms with
  | nil => intro chk rows pv cnt h; simpa [runMembers] using h
  | cons m rest ih =>
    intro chk rows pv cnt h
    by_cases hskip : (m.isDir || !(endsWithAny (lowerStr m.inner) exts)) = true
    · simp only [runMembers, hskip, if_true]
      exact ih chk rows pv cnt h
    · simp only [runMembers, hskip, Bool.false_eq_true, if_false]
      apply ih
      rw [hsa, previewAddAll_true, h]

/-- Without `show_all` the member loop keeps its local preview within
the cap. -/
theorem runMembers_pv_le (p : Params) (kw : String) (exts : List String)
    (archPath : String) (ca : Option Nat) (hsa : p.showAll = false) :
    ∀ (ms : List Member) (chk : Nat) (rows pv : List Row) (cnt : Nat),
      pv.length ≤ 1000 →
      (runMembers p kw exts archPath ca ms chk rows pv cnt).pv.length ≤ 1000 := by
  intro ms
  induction ms with
  | nil => intro chk rows pv cnt h; simpa [runMembers] using h
  | cons m rest ih =>
    intro chk rows pv cnt h
    by_cases hskip : (m.isDir || !(endsWithAny (lowerStr m.inner) exts)) = true
    · simp only [runMembers, hskip, if_true]
      exact ih chk rows pv cnt h
    · simp only [runMembers, hskip, Bool.false_eq_true, if_false]
      apply ih
      rw [hsa]
      exact previewAddAll_le _ _ h

/-- With `show_all` set the archive's local preview equals its rows. -/
theorem runArchive_pv_true (p : Params) (kw : String) (exts : List String)
    (e : FileEntry) (ca : Option Nat) (chk : Nat) (hsa : p.showAll = true) :
    (runArchive p kw exts e ca chk).pv = (runArchive p kw exts e ca chk).rows := by
  cases hop : e.archData.openErr with
  | some msg => simp [runArchive, hop, hsa, previewAddAll_true]
  | none =>
    simp only [runArchive, hop]
    exact runMembers_pv_true p kw exts e.path ca hsa e.archData.members chk [] [] 0 rfl

/-- Without `show_all` the archive's local preview is within the cap. -/
theorem runArchive_pv_le (p : Params) (kw : String) (exts : List String)
    (e : FileEntry) (ca : Option Nat) (chk : Nat) (hsa : p.showAll = false) :
    (runArchive p kw exts e ca chk).pv.length ≤ 1000 := by
  cases hop : e.archData.openErr with
  | some msg =>
    simp [runArchive, hop, hsa, previewAddAll, previewAdd]
  | none =>
    simp only [runArchive, hop]
    exact runMembers_pv_le p kw exts e.path ca hsa e.archData.members chk [] [] 0 (by simp)

/-- With `show_all` set the whole scan's preview tracks the durable
store exactly. -/
theorem scanGo_pv_true (p : Params) (kw : String) (toggle : Bool) (exts : List String)
    (ca : Option Nat) (hsa : p.showAll = true) :
    ∀ (fl : List FileEntry) (st : ScanSt),
      st.preview = st.durable →
      (scanGo p kw toggle exts ca fl st).preview = (scanGo p kw toggle exts ca fl st).durable := by
  intro fl
  induction fl with
  | nil => intro st h; simpa [scanGo] using h
  | cons e rest ih =>
    intro st h
    by_cases hs : stopObs ca st.chk = true
    · simpa [scanGo, hs] using h
    · simp only [Bool.not_eq_true] at hs
      simp only [scanGo, hs, Bool.false_eq_true, if_false]
      apply ih
      by_cases hd : (endsWithAny (lowerStr e.path) ARCHIVE_EXTS && toggle) = true
      · simp only [processEntry, hd, if_true, hsa, if_true]
        rw [h, runArchive_pv_true p kw exts e ca (st.chk + 1) hsa]
      · simp only [processEntry, hd, Bool.false_eq_true, if_false]
        rw [hsa, previewAddAll_true, h]

/-- Without `show_all` the whole scan's preview stays within the
1000-row cap. -/
theorem scanGo_pv_le (p : Params) (kw : String) (toggle : Bool) (exts : List String)
    (ca : Option Nat) (hsa : p.showAll = false) :
    ∀ (fl : List FileEntry) (st : ScanSt),
      st.preview.length ≤ 1000 →
      (scanGo p kw toggle exts ca fl st).preview.length ≤ 1000 := by
  intro fl
  induction fl with
  | nil => intro st h; simpa [scanGo] using h
  | cons e rest ih =>
    intro st h
    by_cases hs : stopObs ca st.chk = true
    · simpa [scanGo, hs] using h
    · simp only [Bool.not_eq_true] at hs
      simp only [scanGo, hs, Bool.false_eq_true, if_false]
      apply ih
      by_cases hd : (endsWithAny (lowerStr e.path) ARCHIVE_EXTS && toggle) = true
      · simp only [processEntry, hd, if_true, hsa, Bool.false_eq_true, if_false]
        rw [List.length_append]
        have := List.length_take_le (1000 - st.preview.length)
          (runArchive p kw exts e ca (st.chk + 1)).pv
        omega
      · simp only [processEntry, hd, Bool.false_eq_true, if_false]
        rw [hsa]
        exact previewAddAll_le _ _ h


/-- The line loop never reads the `show_all` flag. -/
theorem loop_sa_indep (mo ul cs inc sa sa2 : Bool) (hit : String → Bool)
    (mk : Nat → String → Row) (ca : Option Nat) :
    ∀ (ls : List String) (n chk : Nat) (found : Bool) (acc : List Row) (last : Option Row),
      lineLoop ⟨mo, ul, cs, sa, inc⟩ hit mk ca ls n chk found acc last
        = lineLoop ⟨mo, ul, cs, sa2, inc⟩ hit mk ca ls n chk found acc last := by
  intro ls
  induction ls with
  | nil => intro n chk found acc last; rfl
  | cons l rest ih =>
    intro n chk found acc last
    by_cases hs : stopObs ca chk = true
    · simp [lineLoop, hs]
    · simp only [Bool.not_eq_true] at hs
      by_cases hl : hit l = true
      · cases mo
        · cases ul
          · simp [lineLoop, hs, hl, ih]
          · simp [lineLoop, hs, hl, ih]
        · simp [lineLoop, hs, hl]
      · simp only [Bool.not_eq_true] at hl
        simp [lineLoop, hs, hl, ih]

/-- Member processing never reads the `show_all` flag. -/
theorem runMember_sa (mo ul cs inc sa sa2 : Bool) (kw archPath : String) (m : Member)
    (ca : Option Nat) (chk : Nat) :
    runMember ⟨mo, ul, cs, sa, inc⟩ kw archPath m ca chk
      = runMember ⟨mo, ul, cs, sa2, inc⟩ kw archPath m ca chk := by
  rw [runMember_eq_emit, runMember_eq_emit]
  rw [loop_sa_indep mo ul cs inc sa sa2]
  rfl

/-- Plain-file processing never reads the `show_all` flag. -/
theorem runPlain_sa (mo ul cs inc sa sa2 : Bool) (kw : String) (e : FileEntry)
    (ca : Option Nat) (chk : Nat) :
    runPlain ⟨mo, ul, cs, sa, inc⟩ kw e ca chk
      = runPlain ⟨mo, ul, cs, sa2, inc⟩ kw e ca chk := by
  rw [runPlain_eq_emit, runPlain_eq_emit]
  rw [loop_sa_indep mo ul cs inc sa sa2]
  rfl

/-- The member loop's rows, count and counter never read `show_all`. -/
theorem runMembers_sa (mo ul cs inc sa sa2 : Bool) (kw : String) (exts : List String)
    (archPath : String) (ca : Option Nat) :
    ∀ (ms : List Member) (chk : Nat) (rows pv pv2 : List Row) (cnt : Nat),
      (runMembers ⟨mo, ul, cs, sa, inc⟩ kw exts archPath ca ms chk rows pv cnt).rows
          = (runMembers ⟨mo, ul, cs, sa2, inc⟩ kw exts archPath ca ms chk rows pv2 cnt).rows
      ∧ (runMembers ⟨mo, ul, cs, sa, inc⟩ kw exts archPath ca ms chk rows pv cnt).cnt
          = (runMembers ⟨mo, ul, cs, sa2, inc⟩ kw exts archPath ca ms chk rows pv2 cnt).cnt
      ∧ (runMembers ⟨mo, ul, cs, sa, inc⟩ kw exts archPath ca ms chk rows pv cnt).nextChk
          = (runMembers ⟨mo, ul, cs, sa2, inc⟩ kw exts archPath ca ms chk rows pv2 cnt).nextChk := by
  intro ms
  induction ms with
  | nil => intro chk rows pv pv2 cnt; simp [runMembers]
  | cons m rest ih =>
    intro chk rows pv pv2 cnt
    by_cases hskip : (m.isDir || !(endsWithAny (lowerStr m.inner) exts)) = true
    · simp only [runMembers, hskip, if_true]
      exact ih chk rows pv pv2 cnt
    · simp only [runMembers, hskip, Bool.false_eq_true, if_false]
      rw [runMember_sa mo ul cs inc sa sa2]
      exact ih _ _ _ _ _

/-- The archive's rows, count and counter never read `show_all`. -/
theorem runArchive_sa (mo ul cs inc sa sa2 : Bool) (kw : String) (exts : List String)
    (e : FileEntry) (ca : Option Nat) (chk : Nat) :
    (runArchive ⟨mo, ul, cs, sa, inc⟩ kw exts e ca chk).rows
        = (runArchive ⟨mo, ul, cs, sa2, inc⟩ kw exts e ca chk).rows
    ∧ (runArchive ⟨mo, ul, cs, sa, inc⟩ kw exts e ca chk).cnt
        = (runArchive ⟨mo, ul, cs, sa2, inc⟩ kw exts e ca chk).cnt
    ∧ (runArchive ⟨mo, ul, cs, sa, inc⟩ kw exts e ca chk).nextChk
        = (runArchive ⟨mo, ul, cs, sa2, inc⟩ kw exts e ca chk).nextChk := by
  cases hop : e.archData.openErr with
  | some msg => simp [runArchive, hop]
  | none =>
    simp only [runArchive, hop]
    exact runMembers_sa mo ul cs inc sa sa2 kw exts e.path ca e.archData.members chk [] [] [] 0

/-- The scan's durable store, count and counter never read `show_all`. -/
theorem scanGo_sa (mo ul cs inc sa sa2 : Bool) (kw : String) (toggle : Bool)
    (exts : List String) (ca : Option Nat) :
    ∀ (fl : List FileEntry) (st st2 : ScanSt),
      st.durable = st2.durable → st.cnt = st2.cnt → st.chk = st2.chk →
      (scanGo ⟨mo, ul, cs, sa, inc⟩ kw toggle exts ca fl st).durable
          = (scanGo ⟨mo, ul, cs, sa2, inc⟩ kw toggle exts ca fl st2).durable
      ∧ (scanGo ⟨mo, ul, cs, sa, inc⟩ kw toggle exts ca fl st).cnt
          = (scanGo ⟨mo, ul, cs, sa2, inc⟩ kw toggle exts ca fl st2).cnt
      ∧ (scanGo ⟨mo, ul, cs, sa, inc⟩ kw toggle exts ca fl st).chk
          = (scanGo ⟨mo, ul, cs, sa2, inc⟩ kw toggle exts ca fl st2).chk := by
  intro fl
  induction fl with
  | nil => intro st st2 h1 h2 h3; simp [scanGo, h1, h2, h3]
  | cons e rest ih =>
    intro st st2 h1 h2 h3
    by_cases hs : stopObs ca st.chk = true
    · simp [scanGo, hs, ← h3, h1, h2]
    · simp only [Bool.not_eq_true] at hs
      simp only [scanGo, hs, ← h3, Bool.false_eq_true, if_false]
      apply ih
      · by_cases hd : (endsWithAny (lowerStr e.path) ARCHIVE_EXTS && toggle) = true
        · simp only [processEntry, hd, if_true]
          rw [h1, (runArchive_sa mo ul cs inc sa sa2 kw exts e ca (st.chk + 1)).1, h3]
        · simp only [processEntry, hd, Bool.false_eq_true, if_false]
          rw [h1, runPlain_sa mo ul cs inc sa sa2 kw e ca (st.chk + 1), h3]
      · by_cases hd : (endsWithAny (lowerStr e.path) ARCHIVE_EXTS && toggle) = true
        · simp only [processEntry, hd, if_true]
          rw [h2, (runArchive_sa mo ul cs inc sa sa2 kw exts e ca (st.chk + 1)).2.1, h3]
        · simp only [processEntry, hd, Bool.false_eq_true, if_false]
          rw [h2, runPlain_sa mo ul cs inc sa sa2 kw e ca (st.chk + 1), h3]
      · by_cases hd : (endsWithAny (lowerStr e.path) ARCHIVE_EXTS && toggle) = true
        · simp only [processEntry, hd, if_true]
          rw [(runArchive_sa mo ul cs inc sa sa2 kw exts e ca (st.chk + 1)).2.2, h3]
        · simp only [processEntry, hd, Bool.false_eq_true, if_false]
          rw [runPlain_sa mo ul cs inc sa sa2 kw e ca (st.chk + 1), h3]

/-- C6: without `showAllInPreview` the preview buffer never exceeds
1000 rows; with it the preview equals the durable store row for row;
and the durable store itself (also the match count) is unaffected by
the flag — every row is always written durably, only the preview is
capped. -/
theorem c6_preview_cap (p : Params) (kw : String) (toggle : Bool) (exts : List String)
    (walked : List FileEntry) (ca : Option Nat) :
    (p.showAll = false → (searchFiles p kw toggle exts walked ca).preview.length ≤ 1000)
    ∧ (p.showAll = true →
        (searchFiles p kw toggle exts walked ca).preview
          = (searchFiles p kw toggle exts walked ca).durable)
    ∧ (searchFiles p kw toggle exts walked ca).durable
        = (searchFiles ⟨p.matchOnce, p.useLast, p.caseSens, true, p.incNomatch⟩
            kw toggle exts walked ca).durable := by
  obtain ⟨mo, ul, cs, sa, inc⟩ := p
  refine ⟨?_, ?_, ?_⟩
  · intro hsa
    simp only [searchFiles]
    exact scanGo_pv_le _ _ toggle exts ca hsa (fileList toggle exts walked) ⟨[], [], 0, 0⟩
      (by simp)
  · intro hsa
    simp only [searchFiles]
    exact scanGo_pv_true _ _ toggle exts ca hsa (fileList toggle exts walked) ⟨[], [], 0, 0⟩ rfl
  · simp only [searchFiles]
    exact (scanGo_sa mo ul cs inc sa true _ toggle exts ca (fileList toggle exts walked)
      ⟨[], [], 0, 0⟩ ⟨[], [], 0, 0⟩ rfl rfl rfl).1


/-! ### Uncancelled runs do not depend on the check counter -/

/-- On an uncancelled run every loop outcome except the counter itself
is independent of the counter's start value. -/
theorem loop_none_chk (p : Params) (hit : String → Bool) (mk : Nat → String → Row)
    (ls : List String) (n : Nat) (f : Bool) (acc : List Row) (last : Option Row)
    (chk chk' : Nat) :
    (lineLoop p hit mk none ls n chk f acc last).found
        = (lineLoop p hit mk none ls n chk' f acc last).found
    ∧ (lineLoop p hit mk none ls n chk f acc last).hits
        = (lineLoop p hit mk none ls n chk' f acc last).hits
    ∧ (lineLoop p hit mk none ls n chk f acc last).lastMatch
        = (lineLoop p hit mk none ls n chk' f acc last).lastMatch
    ∧ (lineLoop p hit mk none ls n chk f acc last).broke
        = (lineLoop p hit mk none ls n chk' f acc last).broke := by
  by_cases hmo : p.matchOnce = true
  · rw [loop_matchOnce_none p hit mk hmo, loop_matchOnce_none p hit mk hmo]
    cases firstHitIdx hit ls <;> simp
  · simp only [Bool.not_eq_true] at hmo
    by_cases hul : p.useLast = true
    · rw [loop_useLast_none p hit mk hmo hul, loop_useLast_none p hit mk hmo hul]
      simp
    · simp only [Bool.not_eq_true] at hul
      rw [loop_default_none p hit mk hmo hul, loop_default_none p hit mk hmo hul]
      simp

/-- The member emission block's rows and count depend only on the
match list, the remembered last match and the break flag. -/
theorem memberEmit_congr (p : Params) (loc fn : String) (errM : Option String)
    (r r2 : LoopResult) (hh : r.hits = r2.hits) (hlm : r.lastMatch = r2.lastMatch)
    (hb : r.broke = r2.broke) :
    (memberEmit p loc fn errM r).rows = (memberEmit p loc fn errM r2).rows
    ∧ (memberEmit p loc fn errM r).cnt = (memberEmit p loc fn errM r2).cnt := by
  obtain ⟨f1, h1, lm1, c1, n1, b1⟩ := r
  obtain ⟨f2, h2, lm2, c2, n2, b2⟩ := r2
  simp only at hh hlm hb
  subst hh
  subst hlm
  subst hb
  constructor <;>
    by_cases hr : (!b1 && errM.isSome) = true <;>
      by_cases hul : p.useLast = true <;>
        cases lm1 <;>
          by_cases hinc : p.incNomatch = true <;>
            cases h1 <;>
              simp [memberEmit, hr, hul, hinc]

/-- The plain-file emission block's rows and count depend only on the
found flag, the match list, the remembered last match and the break
flag. -/
theorem plainEmit_congr (p : Params) (path fn : String) (errM : Option String)
    (r r2 : LoopResult) (hf : r.found = r2.found) (hh : r.hits = r2.hits)
    (hlm : r.lastMatch = r2.lastMatch) (hb : r.broke = r2.broke) :
    (plainEmit p path fn errM r).rows = (plainEmit p path fn errM r2).rows
    ∧ (plainEmit p path fn errM r).cnt = (plainEmit p path fn errM r2).cnt := by
  obtain ⟨f1, h1, lm1, c1, n1, b1⟩ := r
  obtain ⟨f2, h2, lm2, c2, n2, b2⟩ := r2
  simp only at hf hh hlm hb
  subst hf
  subst hh
  subst hlm
  subst hb
  constructor <;>
    by_cases hr : (!b1 && errM.isSome) = true <;>
      by_cases hul : p.useLast = true <;>
        cases lm1 <;>
          by_cases hinc : p.incNomatch = true <;>
            cases h1 <;>
              by_cases hff : f1 = true <;>
                simp [plainEmit, hr, hul, hinc, hff]

/-- On an uncancelled run a member's rows and count do not depend on
the counter. -/
theorem runMember_none_chk (p : Params) (kw archPath : String) (m : Member)
    (chk chk' : Nat) :
    (runMember p kw archPath m none chk).rows = (runMember p kw archPath m none chk').rows
    ∧ (runMember p kw archPath m none chk).cnt = (runMember p kw archPath m none chk').cnt := by
  rw [runMember_eq_emit, runMember_eq_emit]
  obtain ⟨hf, hh, hlm, hb⟩ := loop_none_chk p (lineHit p.caseSens kw)
    (fun n l => ⟨archPath ++ "::" ++ m.inner, basename m.inner, LineNum.num n, rstripNl l⟩)
    m.src.lines 0 false [] none chk chk'
  exact memberEmit_congr p _ _ m.src.err _ _ hh hlm hb

/-- On an uncancelled run a plain file's rows and count do not depend
on the counter. -/
theorem runPlain_none_chk (p : Params) (kw : String) (e : FileEntry) (chk chk' : Nat) :
    (runPlain p kw e none chk).rows = (runPlain p kw e none chk').rows
    ∧ (runPlain p kw e none chk).cnt = (runPlain p kw e none chk').cnt := by
  rw [runPlain_eq_emit, runPlain_eq_emit]
  obtain ⟨hf, hh, hlm, hb⟩ := loop_none_chk p (lineHit p.caseSens kw)
    (fun n l => ⟨e.path, basename e.path, LineNum.num n, rstripNl l⟩)
    e.plainSrc.lines 0 false [] none chk chk'
  exact plainEmit_congr p _ _ e.plainSrc.err _ _ hf hh hlm hb

/-- On an uncancelled run the member loop's accumulated rows do not
depend on the counter. -/
theorem runMembers_none_chk (p : Params) (kw : String) (exts : List String)
    (archPath : String) :
    ∀ (ms : List Member) (chk chk' : Nat) (rows pv pv2 : List Row) (cnt : Nat),
      (runMembers p kw exts archPath none ms chk rows pv cnt).rows
        = (runMembers p kw exts archPath none ms chk' rows pv2 cnt).rows := by
  intro ms
  induction ms with
  | nil => intro chk chk' rows pv pv2 cnt; simp [runMembers]
  | cons m rest ih =>
    intro chk chk' rows pv pv2 cnt
    by_cases hskip : (m.isDir || !(endsWithAny (lowerStr m.inner) exts)) = true
    · simp only [runMembers, hskip, if_true]
      exact ih chk chk' rows pv pv2 cnt
    · simp only [runMembers, hskip, Bool.false_eq_true, if_false]
      rw [(runMember_none_chk p kw archPath m chk chk').1,
        (runMember_none_chk p kw archPath m chk chk').2]
      exact ih _ _ _ _ _ _

/-- On an uncancelled run an archive's rows do not depend on the
counter. -/
theorem runArchive_none_chk (p : Params) (kw : String) (exts : List String)
    (e : FileEntry) (chk chk' : Nat) :
    (runArchive p kw exts e none chk).rows = (runArchive p kw exts e none chk').rows := by
  cases hop : e.archData.openErr with
  | some msg => simp [runArchive, hop]
  | none =>
    simp only [runArchive, hop]
    exact runMembers_none_chk p kw exts e.path e.archData.members chk chk' [] [] [] 0

/-- The rows one entry contributes on an uncancelled run. -/
def entryRowsFull (p : Params) (kw : String) (toggle : Bool) (exts : List String)
    (e : FileEntry) : List Row :=
  if endsWithAny (lowerStr e.path) ARCHIVE_EXTS && toggle then
    (runArchive p kw exts e none 0).rows
  else (runPlain p kw e none 0).rows

/-- On an uncancelled run the whole scan writes, per entry of the file
list in order, exactly that entry's rows. -/
theorem scanGo_none_durable (p : Params) (kw : String) (toggle : Bool)
    (exts : List String) :
    ∀ (fl : List FileEntry) (st : ScanSt),
      (scanGo p kw toggle exts none fl st).durable
        = st.durable ++ (fl.map (entryRowsFull p kw toggle exts)).flatten := by
  intro fl
  induction fl with
  | nil => intro st; simp [scanGo]
  | cons e rest ih =>
    intro st
    simp only [scanGo, stopObs_none, Bool.false_eq_true, if_false]
    rw [ih]
    by_cases hd : (endsWithAny (lowerStr e.path) ARCHIVE_EXTS && toggle) = true
    · simp only [processEntry, hd, if_true, List.map_cons, List.flatten_cons, entryRowsFull]
      rw [runArchive_none_chk p kw exts e (st.chk + 1) 0]
      simp
    · simp only [processEntry, hd, Bool.false_eq_true, if_false, List.map_cons,
        List.flatten_cons, entryRowsFull]
      rw [(runPlain_none_chk p kw e (st.chk + 1) 0).1]
      simp


/-- C7 counterexample: with the walk yielding the archive `a.zip`
before the plain file `b.txt`, the durable store holds the plain file's
row first — `search_files` moves every archive container after every
plain file (`file_list = normal_files + archive_files`), so row order
does not follow walk order across the two classes. -/
theorem c7_counterexample :
    (searchFiles ⟨false, false, false, false, false⟩ "foo" true [".txt"]
      [⟨"a.zip", "a.zip", ⟨[], none⟩, ⟨[⟨"m.txt", false, ⟨["foo"], none⟩⟩], none⟩⟩,
       ⟨"b.txt", "b.txt", ⟨["foo"], none⟩, ⟨[], none⟩⟩] none).durable
      = [⟨"b.txt", "b.txt", LineNum.num 1, "foo"⟩,
         ⟨"a.zip::m.txt", "m.txt", LineNum.num 1, "foo"⟩] := by decide

/-- C7 amended: on an uncancelled run the durable store is exactly the
concatenation, source by source, of the rows of the plain files in walk
order followed by the rows of the archive containers in walk order
(members in enumeration order inside each archive); within each class
no reordering occurs, but archives are deferred after plain files. -/
theorem c7_amended_order (p : Params) (kw : String) (toggle : Bool)
    (exts : List String) (walked : List FileEntry) :
    (searchFiles p kw toggle exts walked none).durable
      = ((walked.filter (fun e => !(endsWithAny (lowerStr e.name) ARCHIVE_EXTS && toggle)
            && endsWithAny (lowerStr e.name) exts)
          ++ walked.filter (fun e => endsWithAny (lowerStr e.name) ARCHIVE_EXTS && toggle)).map
          (entryRowsFull p (if p.caseSens then kw else lowerStr kw) toggle exts)).flatten := by
  simp only [searchFiles]
  rw [scanGo_none_durable]
  simp [fileList, buildLists_eq_filter]

/-- C9 counterexample: on a two-member 7z archive the code's archive
access trace reopens the archive per member and reads each member into
memory; it is not the spec's extract-everything-once trace and contains
no full extraction at all. -/
theorem c9_counterexample :
    sevenZipTrace [".txt"] ["m1.txt", "m2.txt"]
        ≠ specSevenZipTrace [".txt"] ["m1.txt", "m2.txt"]
    ∧ SzOp.extractAllToDir ∉ sevenZipTrace [".txt"] ["m1.txt", "m2.txt"]
    ∧ SzOp.readMemberIntoMemory "m1.txt" ∈ sevenZipTrace [".txt"] ["m1.txt", "m2.txt"] :=
  ⟨by decide, by decide, by decide⟩

/-- Counting the opens in the flat per-member access pattern. -/
theorem szFlat_open_count :
    ∀ l : List String,
      ((l.flatMap (fun inner => [SzOp.openArchive, SzOp.readMemberIntoMemory inner])).filter
        (fun op => decide (op = SzOp.openArchive))).length = l.length := by
  intro l
  induction l with
  | nil => simp
  | cons a rest ih => simp [List.flatMap_cons, ih]

/-- C9 amended: the 7z path never extracts the archive to a scratch
directory; it opens the archive once to enumerate names and then, for
each eligible member, reopens it and reads that single member into an
in-memory buffer. -/
theorem c9_amended_trace (exts : List String) (inners : List String) :
    SzOp.extractAllToDir ∉ sevenZipTrace exts inners
    ∧ (∀ inner ∈ inners, szEligible exts inner = true →
        SzOp.readMemberIntoMemory inner ∈ sevenZipTrace exts inners)
    ∧ ((sevenZipTrace exts inners).filter
        (fun op => decide (op = SzOp.openArchive))).length
        = 1 + (inners.filter (szEligible exts)).length := by
  refine ⟨?_, ?_, ?_⟩
  · simp only [sevenZipTrace, List.mem_cons, List.mem_flatMap]
    rintro (h | ⟨inner, _, h⟩) <;> simp at h
  · intro inner hmem helig
    simp only [sevenZipTrace, List.mem_cons, List.mem_flatMap]
    right
    exact ⟨inner, List.mem_filter.mpr ⟨hmem, helig⟩, by simp⟩
  · simp only [sevenZipTrace, List.filter_cons]
    norm_num
    rw [szFlat_open_count]
    omega

/-- C10: a regular file whose lowered basename carries an archive
suffix is classified as an archive container (never a plain candidate)
whenever archive search is on — even when its suffix is also in the
allow-list — and with archive search off it is classified as a plain
candidate exactly when its suffix is in the allow-list; the scan then
dispatches such an entry to the archive path. -/
theorem c10_archive_classification (toggle : Bool) (exts : List String)
    (walked : List FileEntry) (e : FileEntry) (hmem : e ∈ walked)
    (harc : endsWithAny (lowerStr e.name) ARCHIVE_EXTS = true) :
    (toggle = true →
      e ∈ (buildLists toggle exts walked).archives
        ∧ e ∉ (buildLists toggle exts walked).normals)
    ∧ (toggle = false →
        ((e ∈ (buildLists toggle exts walked).normals)
            ↔ endsWithAny (lowerStr e.name) exts = true)
          ∧ e ∉ (buildLists toggle exts walked).archives)
    ∧ (∀ (p : Params) (kw : String) (ca : Option Nat) (st : ScanSt),
        endsWithAny (lowerStr e.path) ARCHIVE_EXTS = true → toggle = true →
        (processEntry p kw toggle exts ca st e).durable
          = st.durable ++ (runArchive p kw exts e ca st.chk).rows) := by
  refine ⟨?_, ?_, ?_⟩
  · intro htog
    rw [buildLists_eq_filter]
    constructor
    · exact List.mem_filter.mpr ⟨hmem, by simp [harc, htog]⟩
    · intro hcon
      have := (List.mem_filter.mp hcon).2
      simp [harc, htog] at this
  · intro htog
    rw [buildLists_eq_filter]
    constructor
    · constructor
      · intro hcon
        have := (List.mem_filter.mp hcon).2
        simp only [Bool.and_eq_true, Bool.not_eq_true'] at this
        exact this.2
      · intro hx
        exact List.mem_filter.mpr ⟨hmem, by simp [harc, htog, hx]⟩
    · intro hcon
      have := (List.mem_filter.mp hcon).2
      simp [harc, htog] at this
  · intro p kw ca st hpath htog
    simp [processEntry, hpath, htog]


/-! ### Cancellation: the durable store of a cancelled run -/

/-- The check counter only advances. -/
theorem runMember_nextChk_ge (p : Params) (kw archPath : String) (m : Member)
    (ca : Option Nat) (chk : Nat) :
    chk ≤ (runMember p kw archPath m ca chk).nextChk := by
  rw [runMember_eq_emit, memberEmit_nextChk, loop_nextCheck]
  omega

/-- A member reached with the stop flag already observable emits
nothing if its stream cannot raise and neither `use_last` nor
`inc_nomatch` is set. -/
theorem runMember_stopped (p : Params) (kw archPath : String) (m : Member)
    (c chk : Nat) (hc : c ≤ chk) (herr : m.src.err = none)
    (hul : p.useLast = false) (hinc : p.incNomatch = false) :
    (runMember p kw archPath m (some c) chk).rows = [] := by
  rw [runMember_eq_emit, herr, memberEmit_rows_basic _ _ _ _ hul hinc]
  have hst := loop_stopped p (lineHit p.caseSens kw)
    (fun n l => ⟨archPath ++ "::" ++ m.inner, basename m.inner, LineNum.num n, rstripNl l⟩)
    c m.src.lines 0 chk false [] none hc
  cases hls : m.src.lines with
  | nil =>
    rw [hls] at hst
    rw [hst]
  | cons a t =>
    rw [hls] at hst
    rw [hst]

/-- Cancellation disjunction for a plain file under the basic policy:
the cancelled run either equals the uncancelled run or its rows are an
initial segment of the uncancelled rows, with the flag observed inside
the source. -/
theorem runPlain_cancel (p : Params) (kw : String) (e : FileEntry) (c chk : Nat)
    (hul : p.useLast = false) (hinc : p.incNomatch = false) :
    runPlain p kw e (some c) chk = runPlain p kw e none chk
    ∨ (c < (runPlain p kw e (some c) chk).nextChk
        ∧ ∃ t, (runPlain p kw e none chk).rows = (runPlain p kw e (some c) chk).rows ++ t) := by
  rcases loop_cancel p (lineHit p.caseSens kw)
      (fun n l => ⟨e.path, basename e.path, LineNum.num n, rstripNl l⟩) c hul
      e.plainSrc.lines 0 chk false [] none (fun _ => rfl) with heq | ⟨h1, h2, ⟨t, h3⟩, h4⟩
  · left
    rw [runPlain_eq_emit, runPlain_eq_emit, heq]
  · right
    constructor
    · rw [runPlain_eq_emit, plainEmit_nextChk]
      exact h1
    · rw [runPlain_eq_emit, runPlain_eq_emit, plainEmit_rows_basic _ _ _ _ _ hul hinc,
        plainEmit_rows_basic _ _ _ _ _ hul hinc]
      set rc := lineLoop p (lineHit p.caseSens kw)
        (fun n l => ⟨e.path, basename e.path, LineNum.num n, rstripNl l⟩) (some c)
        e.plainSrc.lines 0 chk false [] none with hrc
      set rf := lineLoop p (lineHit p.caseSens kw)
        (fun n l => ⟨e.path, basename e.path, LineNum.num n, rstripNl l⟩) none
        e.plainSrc.lines 0 chk false [] none with hrf
      by_cases hfc : rc.found = true
      · have hff : rf.found = true := h4 hfc
        simp only [hfc, hff, if_true, h2, Bool.not_true, Bool.false_and, Bool.false_eq_true,
          if_false]
        by_cases hrfr : (!rf.broke && e.plainSrc.err.isSome) = true
        · simp only [hrfr, if_true]
          refine ⟨t ++ [⟨e.path, basename e.path, LineNum.error,
            "Could not read file: " ++ e.plainSrc.err.getD ""⟩], ?_⟩
          rw [h3, List.append_assoc]
        · simp only [Bool.not_eq_true] at hrfr
          simp only [hrfr, Bool.false_eq_true, if_false]
          exact ⟨t, h3⟩
      · simp only [Bool.not_eq_true] at hfc
        simp only [hfc, Bool.false_eq_true, if_false]
        exact ⟨_, (List.nil_append _).symm⟩

/-- Cancellation disjunction for an archive member under the basic
policy, on an exception-free stream. -/
theorem runMember_cancel (p : Params) (kw archPath : String) (m : Member) (c chk : Nat)
    (hul : p.useLast = false) (hinc : p.incNomatch = false) (herr : m.src.err = none) :
    runMember p kw archPath m (some c) chk = runMember p kw archPath m none chk
    ∨ (c < (runMember p kw archPath m (some c) chk).nextChk
        ∧ ∃ t, (runMember p kw archPath m none chk).rows
            = (runMember p kw archPath m (some c) chk).rows ++ t) := by
  rcases loop_cancel p (lineHit p.caseSens kw)
      (fun n l => ⟨archPath ++ "::" ++ m.inner, basename m.inner, LineNum.num n, rstripNl l⟩)
      c hul m.src.lines 0 chk false [] none (fun _ => rfl) with heq | ⟨h1, _, ⟨t, h3⟩, _⟩
  · left
    rw [runMember_eq_emit, runMember_eq_emit, heq]
  · right
    constructor
    · rw [runMember_eq_emit, memberEmit_nextChk]
      exact h1
    · rw [runMember_eq_emit, runMember_eq_emit, herr,
        memberEmit_rows_basic _ _ _ _ hul hinc, memberEmit_rows_basic _ _ _ _ hul hinc]
      exact ⟨t, h3⟩


/-- The member loop only appends rows. -/
theorem runMembers_rows_mono (p : Params) (kw : String) (exts : List String)
    (archPath : String) (ca : Option Nat) :
    ∀ (ms : List Member) (chk : Nat) (rows pv : List Row) (cnt : Nat),
      ∃ t, (runMembers p kw exts archPath ca ms chk rows pv cnt).rows = rows ++ t := by
  intro ms
  induction ms with
  | nil => intro chk rows pv cnt; exact ⟨[], by simp [runMembers]⟩
  | cons m rest ih =>
    intro chk rows pv cnt
    by_cases hskip : (m.isDir || !(endsWithAny (lowerStr m.inner) exts)) = true
    · simp only [runMembers, hskip, if_true]
      exact ih chk rows pv cnt
    · simp only [runMembers, hskip, Bool.false_eq_true, if_false]
      obtain ⟨t, ht⟩ := ih (runMember p kw archPath m ca chk).nextChk
        (rows ++ (runMember p kw archPath m ca chk).rows) _ _
      exact ⟨(runMember p kw archPath m ca chk).rows ++ t, by rw [ht, List.append_assoc]⟩

/-- The member loop's counter only advances. -/
theorem runMembers_nextChk_ge (p : Params) (kw : String) (exts : List String)
    (archPath : String) (ca : Option Nat) :
    ∀ (ms : List Member) (chk : Nat) (rows pv : List Row) (cnt : Nat),
      chk ≤ (runMembers p kw exts archPath ca ms chk rows pv cnt).nextChk := by
  intro ms
  induction ms with
  | nil => intro chk rows pv cnt; simp [runMembers]
  | cons m rest ih =>
    intro chk rows pv cnt
    by_cases hskip : (m.isDir || !(endsWithAny (lowerStr m.inner) exts)) = true
    · simp only [runMembers, hskip, if_true]
      exact ih chk rows pv cnt
    · simp only [runMembers, hskip, Bool.false_eq_true, if_false]
      exact le_trans (runMember_nextChk_ge p kw archPath m ca chk) (ih _ _ _ _)

/-- Once the stop flag is observable, the remaining members of an
archive emit nothing (exception-free streams, basic policy). -/
theorem runMembers_stopped (p : Params) (kw : String) (exts : List String)
    (archPath : String) (c : Nat) (hul : p.useLast = false) (hinc : p.incNomatch = false) :
    ∀ (ms : List Member), (∀ m ∈ ms, m.src.err = none) →
      ∀ (chk : Nat) (rows pv : List Row) (cnt : Nat), c ≤ chk →
      (runMembers p kw exts archPath (some c) ms chk rows pv cnt).rows = rows := by
  intro ms
  induction ms with
  | nil => intro _ chk rows pv cnt _; simp [runMembers]
  | cons m rest ih =>
    intro herrs chk rows pv cnt hc
    by_cases hskip : (m.isDir || !(endsWithAny (lowerStr m.inner) exts)) = true
    · simp only [runMembers, hskip, if_true]
      exact ih (fun x hx => herrs x (List.mem_cons_of_mem _ hx)) chk rows pv cnt hc
    · simp only [runMembers, hskip, Bool.false_eq_true, if_false]
      rw [runMember_stopped p kw archPath m c chk hc
        (herrs m (List.mem_cons_self m rest)) hul hinc]
      simp only [List.append_nil]
      exact ih (fun x hx => herrs x (List.mem_cons_of_mem _ hx)) _ rows _ _
        (le_trans hc (runMember_nextChk_ge p kw archPath m (some c) chk))

/-- Cancellation disjunction for the member loop of one archive. -/
theorem runMembers_cancel (p : Params) (kw : String) (exts : List String)
    (archPath : String) (c : Nat) (hul : p.useLast = false) (hinc : p.incNomatch = false) :
    ∀ (ms : List Member), (∀ m ∈ ms, m.src.err = none) →
      ∀ (chk : Nat) (rows pv : List Row) (cnt : Nat),
      runMembers p kw exts archPath (some c) ms chk rows pv cnt
          = runMembers p kw exts archPath none ms chk rows pv cnt
      ∨ (c < (runMembers p kw exts archPath (some c) ms chk rows pv cnt).nextChk
          ∧ ∃ t, (runMembers p kw exts archPath none ms chk rows pv cnt).rows
              = (runMembers p kw exts archPath (some c) ms chk rows pv cnt).rows ++ t) := by
  intro ms
  induction ms with
  | nil => intro _ chk rows pv cnt; left; rfl
  | cons m rest ih =>
    intro herrs chk rows pv cnt
    by_cases hskip : (m.isDir || !(endsWithAny (lowerStr m.inner) exts)) = true
    · simp only [runMembers, hskip, if_true]
      exact ih (fun x hx => herrs x (List.mem_cons_of_mem _ hx)) chk rows pv cnt
    · simp only [runMembers, hskip, Bool.false_eq_true, if_false]
      rcases runMember_cancel p kw archPath m c chk hul hinc
          (herrs m (List.mem_cons_self m rest)) with heq | ⟨h1, ⟨t, h3⟩⟩
      · rw [heq]
        exact ih (fun x hx => herrs x (List.mem_cons_of_mem _ hx)) _ _ _ _
      · right
        have hrest := runMembers_stopped p kw exts archPath c hul hinc rest
          (fun x hx => herrs x (List.mem_cons_of_mem _ hx))
          (runMember p kw archPath m (some c) chk).nextChk
          (rows ++ (runMember p kw archPath m (some c) chk).rows)
          (previewAddAll p.showAll pv (runMember p kw archPath m (some c) chk).rows)
          (cnt + (runMember p kw archPath m (some c) chk).cnt) (le_of_lt h1)
        constructor
        · calc c < (runMember p kw archPath m (some c) chk).nextChk := h1
            _ ≤ _ := runMembers_nextChk_ge p kw exts archPath (some c) rest _ _ _ _
        · obtain ⟨t2, ht2⟩ := runMembers_rows_mono p kw exts archPath none rest
            (runMember p kw archPath m none chk).nextChk
            (rows ++ (runMember p kw archPath m none chk).rows) _
            (cnt + (runMember p kw archPath m none chk).cnt)
          rw [hrest, ht2, h3]
          exact ⟨t ++ t2, by simp [List.append_assoc]⟩

/-- Cancellation disjunction for one archive container. -/
theorem runArchive_cancel (p : Params) (kw : String) (exts : List String)
    (e : FileEntry) (c chk : Nat) (hul : p.useLast = false) (hinc : p.incNomatch = false)
    (herrs : ∀ m ∈ e.archData.members, m.src.err = none) :
    runArchive p kw exts e (some c) chk = runArchive p kw exts e none chk
    ∨ (c < (runArchive p kw exts e (some c) chk).nextChk
        ∧ ∃ t, (runArchive p kw exts e none chk).rows
            = (runArchive p kw exts e (some c) chk).rows ++ t) := by
  cases hop : e.archData.openErr with
  | some msg =>
    left
    simp [runArchive, hop]
  | none =>
    simp only [runArchive, hop]
    exact runMembers_cancel p kw exts e.path c hul hinc e.archData.members herrs chk [] [] 0


/-- Cancellation disjunction for one iteration of the scan loop. -/
theorem processEntry_cancel (p : Params) (kw : String) (toggle : Bool)
    (exts : List String) (st : ScanSt) (e : FileEntry) (c : Nat)
    (hul : p.useLast = false) (hinc : p.incNomatch = false)
    (herrs : ∀ m ∈ e.archData.members, m.src.err = none) :
    processEntry p kw toggle exts (some c) st e = processEntry p kw toggle exts none st e
    ∨ (c < (processEntry p kw toggle exts (some c) st e).chk
        ∧ ∃ t, (processEntry p kw toggle exts none st e).durable
            = (processEntry p kw toggle exts (some c) st e).durable ++ t) := by
  by_cases hd : (endsWithAny (lowerStr e.path) ARCHIVE_EXTS && toggle) = true
  · rcases runArchive_cancel p kw exts e c st.chk hul hinc herrs with heq | ⟨h1, ⟨t, h3⟩⟩
    · left
      simp only [processEntry, hd, if_true, heq]
    · right
      constructor
      · simp only [processEntry, hd, if_true]
        exact h1
      · simp only [processEntry, hd, if_true]
        exact ⟨t, by rw [h3, List.append_assoc]⟩
  · rcases runPlain_cancel p kw e c st.chk hul hinc with heq | ⟨h1, ⟨t, h3⟩⟩
    · left
      simp only [processEntry, hd, Bool.false_eq_true, if_false, heq]
    · right
      constructor
      · simp only [processEntry, hd, Bool.false_eq_true, if_false]
        exact h1
      · simp only [processEntry, hd, Bool.false_eq_true, if_false]
        exact ⟨t, by rw [h3, List.append_assoc]⟩

/-- The scan loop only appends to the durable store. -/
theorem scanGo_durable_mono (p : Params) (kw : String) (toggle : Bool)
    (exts : List String) (ca : Option Nat) :
    ∀ (fl : List FileEntry) (st : ScanSt),
      ∃ t, (scanGo p kw toggle exts ca fl st).durable = st.durable ++ t := by
  intro fl
  induction fl with
  | nil => intro st; exact ⟨[], by simp [scanGo]⟩
  | cons e rest ih =>
    intro st
    by_cases hs : stopObs ca st.chk = true
    · exact ⟨[], by simp [scanGo, hs]⟩
    · simp only [Bool.not_eq_true] at hs
      simp only [scanGo, hs, Bool.false_eq_true, if_false]
      obtain ⟨t, ht⟩ := ih (processEntry p kw toggle exts ca
        ⟨st.durable, st.preview, st.cnt, st.chk + 1⟩ e)
      by_cases hd : (endsWithAny (lowerStr e.path) ARCHIVE_EXTS && toggle) = true
      · refine ⟨(runArchive p kw exts e ca (st.chk + 1)).rows ++ t, ?_⟩
        rw [ht]
        simp only [processEntry, hd, if_true]
        simp [List.append_assoc]
      · refine ⟨(runPlain p kw e ca (st.chk + 1)).rows ++ t, ?_⟩
        rw [ht]
        simp only [processEntry, hd, Bool.false_eq_true, if_false]
        simp [List.append_assoc]

/-- A cancelled scan loop entered with the flag observable writes
nothing more. -/
theorem scanGo_stopped (p : Params) (kw : String) (toggle : Bool) (exts : List String)
    (c : Nat) (fl : List FileEntry) (st : ScanSt) (hc : c ≤ st.chk) :
    (scanGo p kw toggle exts (some c) fl st).durable = st.durable := by
  cases fl with
  | nil => simp [scanGo]
  | cons e rest =>
    have hs : stopObs (some c) st.chk = true := by simp; omega
    simp [scanGo, hs]

/-- Cancelling at any point yields a durable store that is an initial
segment of the uncancelled run's, under the basic policy and
exception-free archive members. -/
theorem scanGo_cancel (p : Params) (kw : String) (toggle : Bool) (exts : List String)
    (c : Nat) (hul : p.useLast = false) (hinc : p.incNomatch = false) :
    ∀ (fl : List FileEntry), (∀ e ∈ fl, ∀ m ∈ e.archData.members, m.src.err = none) →
      ∀ st : ScanSt,
      ∃ t, (scanGo p kw toggle exts none fl st).durable
          = (scanGo p kw toggle exts (some c) fl st).durable ++ t := by
  intro fl
  induction fl with
  | nil => intro _ st; exact ⟨[], by simp [scanGo]⟩
  | cons e rest ih =>
    intro herrs st
    by_cases hstop : c ≤ st.chk
    · have hs : stopObs (some c) st.chk = true := by simp; omega
      rw [scanGo_stopped p kw toggle exts c (e :: rest) st hstop]
      obtain ⟨t, ht⟩ := scanGo_durable_mono p kw toggle exts none (e :: rest) st
      exact ⟨t, ht⟩
    · have hs : stopObs (some c) st.chk = false := by simp; omega
      simp only [scanGo, hs, stopObs_none, Bool.false_eq_true, if_false]
      rcases processEntry_cancel p kw toggle exts ⟨st.durable, st.preview, st.cnt, st.chk + 1⟩
          e c hul hinc (herrs e (List.mem_cons_self e rest)) with heq | ⟨h1, ⟨t, h3⟩⟩
      · rw [heq]
        exact ih (fun x hx => herrs x (List.mem_cons_of_mem _ hx)) _
      · rw [scanGo_stopped p kw toggle exts c rest _ (le_of_lt h1)]
        obtain ⟨t2, ht2⟩ := scanGo_durable_mono p kw toggle exts none rest
          (processEntry p kw toggle exts none ⟨st.durable, st.preview, st.cnt, st.chk + 1⟩ e)
        rw [ht2, h3]
        exact ⟨t ++ t2, by simp [List.append_assoc]⟩

/-- C8 counterexample: under `useLastMatch`, cancelling mid-file can
replace the single row an uncancelled run would write (last hit, line
3) by a row for an earlier hit (line 1), so the cancelled durable store
is not a prefix of the uncancelled one. -/
theorem c8_counterexample :
    (searchFiles ⟨false, true, false, false, false⟩ "foo" true [".txt"]
        [⟨"g.txt", "g.txt", ⟨["foo", "z", "foo"], none⟩, ⟨[], none⟩⟩] (some 2)).durable
      ≠ ((searchFiles ⟨false, true, false, false, false⟩ "foo" true [".txt"]
        [⟨"g.txt", "g.txt", ⟨["foo", "z", "foo"], none⟩, ⟨[], none⟩⟩] none).durable.take
        ((searchFiles ⟨false, true, false, false, false⟩ "foo" true [".txt"]
          [⟨"g.txt", "g.txt", ⟨["foo", "z", "foo"], none⟩, ⟨[], none⟩⟩]
          (some 2)).durable.length)) := by decide

/-- C8 amended: with `useLastMatch` and `includeNonMatching` both
clear and no archive member raising a read exception, the durable
store of a run cancelled at any check is an initial segment of the
uncancelled run's durable store (possibly the whole of it). -/
theorem c8_amended_cancel_pre (p : Params) (kw : String) (toggle : Bool)
    (exts : List String) (walked : List FileEntry) (c : Nat)
    (hul : p.useLast = false) (hinc : p.incNomatch = false)
    (herrs : ∀ e ∈ walked, ∀ m ∈ e.archData.members, m.src.err = none) :
    ∃ t, (searchFiles p kw toggle exts walked none).durable
        = (searchFiles p kw toggle exts walked (some c)).durable ++ t := by
  simp only [searchFiles]
  exact scanGo_cancel p _ toggle exts c hul hinc (fileList toggle exts walked)
    (fun e he => herrs e (fileList_subset toggle exts walked e he)) ⟨[], [], 0, 0⟩


/-! ### Concrete instantiations of the conditional theorems -/

/-- C1 at a concrete source. -/
theorem c1_matchOnce_first_hit_witness :
    (⟨true, false, false, false, true⟩ : Params).matchOnce = true
    ∧ ((runPlain ⟨true, false, false, false, true⟩ "foo"
        ⟨"a.txt", "a.txt", ⟨["foo", "bar", "foo"], none⟩, ⟨[], none⟩⟩ none 0).rows.filter
        (fun row => decide (row.lineNum ≠ LineNum.error))).length ≤ 1 :=
  ⟨rfl, (c1_matchOnce_first_hit ⟨true, false, false, false, true⟩ "foo" "a.zip"
    ⟨"a.txt", "a.txt", ⟨["foo", "bar", "foo"], none⟩, ⟨[], none⟩⟩
    ⟨"m.txt", false, ⟨[], none⟩⟩ none 0 rfl).1.1⟩

/-- C2 at a concrete source. -/
theorem c2_useLast_greatest_witness :
    (⟨false, true, false, false, true⟩ : Params).useLast = true
    ∧ (runPlain ⟨false, true, false, false, true⟩ "foo"
        ⟨"a.txt", "a.txt", ⟨["foo", "bar", "foo"], none⟩, ⟨[], none⟩⟩ none 0).rows.length ≤ 1 :=
  ⟨rfl, (c2_useLast_greatest ⟨false, true, false, false, true⟩ "foo" "a.zip"
    ⟨"a.txt", "a.txt", ⟨["foo", "bar", "foo"], none⟩, ⟨[], none⟩⟩
    ⟨"m.txt", false, ⟨[], none⟩⟩ none 0 rfl rfl).1.1⟩

/-- C4 amended at a concrete zero-match member. -/
theorem c4_amended_sentinel_witness :
    (runMember ⟨false, false, false, false, true⟩ "foo" "a.zip"
        ⟨"m.txt", false, ⟨["bar"], none⟩⟩ none 0).rows
      = [⟨"a.zip::m.txt", "m.txt", LineNum.sentinel, "[No match found]"⟩] :=
  (c4_amended_sentinel ⟨false, false, false, false, true⟩ "foo" "a.zip"
    ⟨"b.txt", "b.txt", ⟨["bar"], none⟩, ⟨[], none⟩⟩
    ⟨"m.txt", false, ⟨["bar"], none⟩⟩ none 0 rfl rfl).1 rfl (by decide)

/-- C5 amended at a concrete scan. -/
theorem c5_amended_count_witness :
    (searchFiles ⟨false, false, false, false, true⟩ "foo" true [".txt"]
        [⟨"a.txt", "a.txt", ⟨["foo", "bar"], none⟩, ⟨[], none⟩⟩] none).cnt
      = ((searchFiles ⟨false, false, false, false, true⟩ "foo" true [".txt"]
        [⟨"a.txt", "a.txt", ⟨["foo", "bar"], none⟩, ⟨[], none⟩⟩] none).durable.filter
        (fun row => row.lineNum.isNum)).length :=
  c5_amended_count ⟨false, false, false, false, true⟩ "foo" true [".txt"]
    [⟨"a.txt", "a.txt", ⟨["foo", "bar"], none⟩, ⟨[], none⟩⟩] none (by decide)

/-- C6 at a concrete scan. -/
theorem c6_preview_cap_witness :
    (searchFiles ⟨false, false, false, false, true⟩ "foo" true [".txt"]
        [⟨"a.txt", "a.txt", ⟨["foo"], none⟩, ⟨[], none⟩⟩] none).preview.length ≤ 1000 :=
  (c6_preview_cap ⟨false, false, false, false, true⟩ "foo" true [".txt"]
    [⟨"a.txt", "a.txt", ⟨["foo"], none⟩, ⟨[], none⟩⟩] none).1 rfl

/-- C8 amended at a concrete cancelled scan. -/
theorem c8_amended_cancel_pre_witness :
    ∃ t, (searchFiles ⟨false, false, false, false, false⟩ "foo" true [".txt"]
        [⟨"g.txt", "g.txt", ⟨["foo", "z", "foo"], none⟩, ⟨[], none⟩⟩] none).durable
      = (searchFiles ⟨false, false, false, false, false⟩ "foo" true [".txt"]
        [⟨"g.txt", "g.txt", ⟨["foo", "z", "foo"], none⟩, ⟨[], none⟩⟩] (some 2)).durable ++ t :=
  c8_amended_cancel_pre ⟨false, false, false, false, false⟩ "foo" true [".txt"]
    [⟨"g.txt", "g.txt", ⟨["foo", "z", "foo"], none⟩, ⟨[], none⟩⟩] 2 rfl rfl (by decide)

/-- C9 amended at a concrete archive. -/
theorem c9_amended_trace_witness :
    SzOp.extractAllToDir ∉ sevenZipTrace [".txt"] ["m1.txt", "m2.txt"] :=
  (c9_amended_trace [".txt"] ["m1.txt", "m2.txt"]).1

/-- C10 at a concrete walked list. -/
theorem c10_archive_classification_witness :
    (⟨"a.zip", "a.zip", ⟨["foo"], none⟩, ⟨[], none⟩⟩ : FileEntry)
      ∈ (buildLists true [".txt", ".zip"]
          [⟨"a.zip", "a.zip", ⟨["foo"], none⟩, ⟨[], none⟩⟩]).archives :=
  ((c10_archive_classification true [".txt", ".zip"]
    [⟨"a.zip", "a.zip", ⟨["foo"], none⟩, ⟨[], none⟩⟩]
    ⟨"a.zip", "a.zip", ⟨["foo"], none⟩, ⟨[], none⟩⟩
    (by decide) (by decide)).1 rfl).1


end FS
